import Mathlib

/-!
# XChaCha20: a shallow embedding of `xchacha20.h` / `xchacha20.c`

Machine words are natural numbers; every place where the C code truncates
(`uint32_t` arithmetic, the `uint8_t` cast) carries an explicit `%`.
Byte buffers are lists of natural numbers; a pointer `p + k` into a buffer is
the suffix `p.drop k`.
-/

set_option maxRecDepth 100000

namespace XChaCha20

/-! ## Macros of `xchacha20.h` -/

/-- Block size in bytes: `#define XCHACHA_BLOCKLENGTH 64`. -/
def XCHACHA_BLOCKLENGTH : Nat := 64

/-- The macro `U8V(v)`, that is `((uint8_t)(v) & (0xFF))`. -/
def U8V (v : Nat) : Nat := (v % 2 ^ 8) &&& 0xFF

/-- The macro `U32V(v)`, that is `((uint32_t)(v) & (0xFFFFFFFF))`. -/
def U32V (v : Nat) : Nat := (v % 2 ^ 32) &&& 0xFFFFFFFF

/-- The macro `ROTL32(v, n)`, that is `(U32V((v) << (n)) | ((v) >> (32 - (n))))`. -/
def ROTL32 (v n : Nat) : Nat := U32V (v <<< n) ||| (v >>> (32 - n))

/-- The macro `U8TO32_LITTLE(p)`: the four bytes `p[0..3]` assembled into a word.
The argument is the buffer from the pointer `p` onwards. -/
def U8TO32_LITTLE (p : List Nat) : Nat :=
  (p.getD 0 0) ||| (p.getD 1 0 <<< 8) ||| (p.getD 2 0 <<< 16) ||| (p.getD 3 0 <<< 24)

/-- The macro `U32TO8_LITTLE(p, v)`: the four bytes it stores at `p[0]`, `p[1]`,
`p[2]`, `p[3]`, in that order. -/
def U32TO8_LITTLE (v : Nat) : List Nat :=
  [U8V v, U8V (v >>> 8), U8V (v >>> 16), U8V (v >>> 24)]

/-- The macro `ROTATE(v,c)`. -/
def ROTATE (v c : Nat) : Nat := ROTL32 v c

/-- The macro `XOR(v,w)`. -/
def XOR (v w : Nat) : Nat := v ^^^ w

/-- The macro `PLUS(v,w)`, that is `U32V((v) + (w))`. -/
def PLUS (v w : Nat) : Nat := U32V (v + w)

/-- The macro `PLUSONE(v)`. -/
def PLUSONE (v : Nat) : Nat := PLUS v 1

/-- The macro `QUARTERROUND(a,b,c,d)`: the new values of `a`, `b`, `c`, `d`. -/
def QUARTERROUND (a b c d : Nat) : Nat × Nat × Nat × Nat :=
  let a := PLUS a b
  let d := ROTATE (XOR d a) 16
  let c := PLUS c d
  let b := ROTATE (XOR b c) 12
  let a := PLUS a b
  let d := ROTATE (XOR d a) 8
  let c := PLUS c d
  let b := ROTATE (XOR b c) 7
  (a, b, c, d)

/-- Sixteen 32-bit words: the array `input[16]` of a context, and also the
sixteen locals `x0 .. x15` (or `j0 .. j15`) of the C functions. -/
structure Words16 where
  w0 : Nat
  w1 : Nat
  w2 : Nat
  w3 : Nat
  w4 : Nat
  w5 : Nat
  w6 : Nat
  w7 : Nat
  w8 : Nat
  w9 : Nat
  w10 : Nat
  w11 : Nat
  w12 : Nat
  w13 : Nat
  w14 : Nat
  w15 : Nat
  deriving DecidableEq, Repr

/-- The struct `XChaCha_ctx`: `uint32_t input[16]`. -/
structure XChaCha_ctx where
  input : Words16
  deriving DecidableEq, Repr

/-! ## `xchacha_hchacha20` -/

/-- The eight `QUARTERROUND` lines in the body of the round loop of
`xchacha_hchacha20` (lines 47-54). -/
def hchacha20_round_body (x : Words16) : Words16 :=
  match QUARTERROUND x.w0 x.w4 x.w8 x.w12 with
  | (x0, x4, x8, x12) =>
  match QUARTERROUND x.w1 x.w5 x.w9 x.w13 with
  | (x1, x5, x9, x13) =>
  match QUARTERROUND x.w2 x.w6 x.w10 x.w14 with
  | (x2, x6, x10, x14) =>
  match QUARTERROUND x.w3 x.w7 x.w11 x.w15 with
  | (x3, x7, x11, x15) =>
  match QUARTERROUND x0 x5 x10 x15 with
  | (x0, x5, x10, x15) =>
  match QUARTERROUND x1 x6 x11 x12 with
  | (x1, x6, x11, x12) =>
  match QUARTERROUND x2 x7 x8 x13 with
  | (x2, x7, x8, x13) =>
  match QUARTERROUND x3 x4 x9 x14 with
  | (x3, x4, x9, x14) =>
  ⟨x0, x1, x2, x3, x4, x5, x6, x7, x8, x9, x10, x11, x12, x13, x14, x15⟩

/-- The loop `for (i = 0; i < 10; i++)` of `xchacha_hchacha20`, entered with
`n = 10 - i` iterations still to run. -/
def hchacha20_rounds : Nat → Words16 → Words16
  | 0, x => x
  | n + 1, x => hchacha20_rounds n (hchacha20_round_body x)

/-- The function `xchacha_hchacha20(out, in, k)`: the 32 bytes it stores at
`out[0..31]`. -/
def xchacha_hchacha20 (inp k : List Nat) : List Nat :=
  let x : Words16 :=
    { w0 := 0x61707865, w1 := 0x3320646e, w2 := 0x79622d32, w3 := 0x6b206574,
      w4 := U8TO32_LITTLE (k.drop 0), w5 := U8TO32_LITTLE (k.drop 4),
      w6 := U8TO32_LITTLE (k.drop 8), w7 := U8TO32_LITTLE (k.drop 12),
      w8 := U8TO32_LITTLE (k.drop 16), w9 := U8TO32_LITTLE (k.drop 20),
      w10 := U8TO32_LITTLE (k.drop 24), w11 := U8TO32_LITTLE (k.drop 28),
      w12 := U8TO32_LITTLE (inp.drop 0), w13 := U8TO32_LITTLE (inp.drop 4),
      w14 := U8TO32_LITTLE (inp.drop 8), w15 := U8TO32_LITTLE (inp.drop 12) }
  let x := hchacha20_rounds 10 x
  U32TO8_LITTLE x.w0 ++ U32TO8_LITTLE x.w1 ++ U32TO8_LITTLE x.w2 ++ U32TO8_LITTLE x.w3
    ++ U32TO8_LITTLE x.w12 ++ U32TO8_LITTLE x.w13 ++ U32TO8_LITTLE x.w14
    ++ U32TO8_LITTLE x.w15

/-! ## `xchacha_keysetup` and `xchacha_set_counter` -/

/-- The function `xchacha_keysetup(ctx, k, iv)`: the context it leaves. The local
`k2[32]` is filled entirely by `xchacha_hchacha20(k2, iv, k)`. -/
def xchacha_keysetup (ctx : XChaCha_ctx) (k iv : List Nat) : XChaCha_ctx :=
  let k2 := xchacha_hchacha20 iv k
  { ctx with input :=
    { ctx.input with
      w0 := 0x61707865, w1 := 0x3320646e, w2 := 0x79622d32, w3 := 0x6b206574,
      w4 := U8TO32_LITTLE (k2.drop 0), w5 := U8TO32_LITTLE (k2.drop 4),
      w6 := U8TO32_LITTLE (k2.drop 8), w7 := U8TO32_LITTLE (k2.drop 12),
      w8 := U8TO32_LITTLE (k2.drop 16), w9 := U8TO32_LITTLE (k2.drop 20),
      w10 := U8TO32_LITTLE (k2.drop 24), w11 := U8TO32_LITTLE (k2.drop 28),
      w12 := 0, w13 := 0,
      w14 := U8TO32_LITTLE (iv.drop 16), w15 := U8TO32_LITTLE (iv.drop 20) } }

/-- The function `xchacha_set_counter(ctx, counter)`: the context it leaves. -/
def xchacha_set_counter (ctx : XChaCha_ctx) (counter : List Nat) : XChaCha_ctx :=
  { ctx with input :=
    { ctx.input with
      w12 := U8TO32_LITTLE (counter.drop 0), w13 := U8TO32_LITTLE (counter.drop 4) } }

/-! ## `xchacha_encrypt_bytes` -/

/-- The copy loop `for (i = 0; i < bytes; ++i) dst[i] = src[i];` (lines 154-155
and 246-247): the buffer `dst` afterwards, both buffers holding at least
`bytes` bytes. -/
def copy_bytes (dst src : List Nat) (bytes : Nat) : List Nat :=
  src.take bytes ++ dst.drop bytes

/-- The eight `QUARTERROUND` lines in the body of the round loop of
`xchacha_encrypt_bytes` (lines 179-186). -/
def encrypt_round_body (x : Words16) : Words16 :=
  match QUARTERROUND x.w0 x.w4 x.w8 x.w12 with
  | (x0, x4, x8, x12) =>
  match QUARTERROUND x.w1 x.w5 x.w9 x.w13 with
  | (x1, x5, x9, x13) =>
  match QUARTERROUND x.w2 x.w6 x.w10 x.w14 with
  | (x2, x6, x10, x14) =>
  match QUARTERROUND x.w3 x.w7 x.w11 x.w15 with
  | (x3, x7, x11, x15) =>
  match QUARTERROUND x0 x5 x10 x15 with
  | (x0, x5, x10, x15) =>
  match QUARTERROUND x1 x6 x11 x12 with
  | (x1, x6, x11, x12) =>
  match QUARTERROUND x2 x7 x8 x13 with
  | (x2, x7, x8, x13) =>
  match QUARTERROUND x3 x4 x9 x14 with
  | (x3, x4, x9, x14) =>
  ⟨x0, x1, x2, x3, x4, x5, x6, x7, x8, x9, x10, x11, x12, x13, x14, x15⟩

/-- The loop `for (i = 20; i > 0; i -= 2)` of `xchacha_encrypt_bytes`, entered
with the loop variable equal to `i`. It is only ever entered with `i = 20`; an
odd `i` never occurs. -/
def encrypt_rounds : Nat → Words16 → Words16
  | i + 2, x => encrypt_rounds i (encrypt_round_body x)
  | _, x => x

/-- Lines 188-203: `x0 = PLUS(x0,j0); ... x15 = PLUS(x15,j15);`. -/
def encrypt_plus (x j : Words16) : Words16 :=
  { w0 := PLUS x.w0 j.w0, w1 := PLUS x.w1 j.w1, w2 := PLUS x.w2 j.w2, w3 := PLUS x.w3 j.w3,
    w4 := PLUS x.w4 j.w4, w5 := PLUS x.w5 j.w5, w6 := PLUS x.w6 j.w6, w7 := PLUS x.w7 j.w7,
    w8 := PLUS x.w8 j.w8, w9 := PLUS x.w9 j.w9, w10 := PLUS x.w10 j.w10,
    w11 := PLUS x.w11 j.w11, w12 := PLUS x.w12 j.w12, w13 := PLUS x.w13 j.w13,
    w14 := PLUS x.w14 j.w14, w15 := PLUS x.w15 j.w15 }

/-- Lines 205-220: `x0 = XOR(x0,U8TO32_LITTLE(m + 0)); ...
x15 = XOR(x15,U8TO32_LITTLE(m + 60));`. -/
def encrypt_xor (x : Words16) (m : List Nat) : Words16 :=
  { w0 := XOR x.w0 (U8TO32_LITTLE (m.drop 0)), w1 := XOR x.w1 (U8TO32_LITTLE (m.drop 4)),
    w2 := XOR x.w2 (U8TO32_LITTLE (m.drop 8)), w3 := XOR x.w3 (U8TO32_LITTLE (m.drop 12)),
    w4 := XOR x.w4 (U8TO32_LITTLE (m.drop 16)), w5 := XOR x.w5 (U8TO32_LITTLE (m.drop 20)),
    w6 := XOR x.w6 (U8TO32_LITTLE (m.drop 24)), w7 := XOR x.w7 (U8TO32_LITTLE (m.drop 28)),
    w8 := XOR x.w8 (U8TO32_LITTLE (m.drop 32)), w9 := XOR x.w9 (U8TO32_LITTLE (m.drop 36)),
    w10 := XOR x.w10 (U8TO32_LITTLE (m.drop 40)),
    w11 := XOR x.w11 (U8TO32_LITTLE (m.drop 44)),
    w12 := XOR x.w12 (U8TO32_LITTLE (m.drop 48)),
    w13 := XOR x.w13 (U8TO32_LITTLE (m.drop 52)),
    w14 := XOR x.w14 (U8TO32_LITTLE (m.drop 56)),
    w15 := XOR x.w15 (U8TO32_LITTLE (m.drop 60)) }

/-- Lines 227-242: `U32TO8_LITTLE(c + 0,x0); ... U32TO8_LITTLE(c + 60,x15);`,
the 64 bytes stored at `c[0..63]`. -/
def encrypt_store (x : Words16) : List Nat :=
  U32TO8_LITTLE x.w0 ++ U32TO8_LITTLE x.w1 ++ U32TO8_LITTLE x.w2 ++ U32TO8_LITTLE x.w3
    ++ U32TO8_LITTLE x.w4 ++ U32TO8_LITTLE x.w5 ++ U32TO8_LITTLE x.w6 ++ U32TO8_LITTLE x.w7
    ++ U32TO8_LITTLE x.w8 ++ U32TO8_LITTLE x.w9 ++ U32TO8_LITTLE x.w10
    ++ U32TO8_LITTLE x.w11 ++ U32TO8_LITTLE x.w12 ++ U32TO8_LITTLE x.w13
    ++ U32TO8_LITTLE x.w14 ++ U32TO8_LITTLE x.w15

/-- Lines 222-225: `j12 = PLUSONE(j12); if (!j12) { j13 = PLUSONE(j13); }`. -/
def encrypt_counter (j : Words16) : Words16 :=
  let j12 := PLUSONE j.w12
  let j13 := if j12 = 0 then PLUSONE j.w13 else j.w13
  { j with w12 := j12, w13 := j13 }

/-- The loop `for (;;)` of `xchacha_encrypt_bytes` (lines 152-256).
`fuel` bounds the number of iterations (`none`: the bound was reached before
the `return`). `j` holds the locals `j0 .. j15`, `m` and `c` are the buffers
from the current pointers onwards, `tmp` is the 64-byte scratch array and
`bytes` the number of bytes left. The result is the context stored at the
`return` and the buffer `c` (from the pointer at loop entry) afterwards. -/
def encrypt_loop : Nat → XChaCha_ctx → Words16 → List Nat → List Nat → List Nat → Nat →
    Option (XChaCha_ctx × List Nat)
  | 0, _, _, _, _, _, _ => none
  | fuel + 1, ctx, j, m, c, tmp, bytes =>
    -- lines 153-159: the last, partial block is staged in `tmp`
    let tmp := if bytes < 64 then copy_bytes tmp m bytes else tmp
    let m1 := if bytes < 64 then tmp else m
    -- lines 160-220
    let x := j
    let x := encrypt_rounds 20 x
    let x := encrypt_plus x j
    let x := encrypt_xor x m1
    -- lines 222-225
    let j := encrypt_counter j
    -- lines 227-242: stored at `c`, which is `tmp` for a partial block
    let block := encrypt_store x
    if bytes ≤ 64 then
      let ctx := { ctx with input := { ctx.input with w12 := j.w12, w13 := j.w13 } }
      if bytes < 64 then
        some (ctx, copy_bytes c (block ++ tmp.drop 64) bytes)
      else
        some (ctx, block ++ c.drop 64)
    else
      match encrypt_loop fuel ctx j (m.drop 64) (c.drop 64) tmp (bytes - 64) with
      | some (ctx, rest) => some (ctx, block ++ rest)
      | none => none

/-- The function `xchacha_encrypt_bytes(ctx, m, c, bytes)`: the context and the
buffer `c` it leaves. `tmp` is the content of the uninitialised local
`tmp[64]` at entry. Every iteration of the block loop consumes at least one
byte, so `bytes` iterations are allowed for. -/
def xchacha_encrypt_bytes (ctx : XChaCha_ctx) (m c tmp : List Nat) (bytes : Nat) :
    Option (XChaCha_ctx × List Nat) :=
  if bytes = 0 then some (ctx, c)
  else encrypt_loop bytes ctx ctx.input m c tmp bytes

/-- The function `xchacha_decrypt_bytes(ctx, c, m, bytes)`. -/
def xchacha_decrypt_bytes (ctx : XChaCha_ctx) (c m tmp : List Nat) (bytes : Nat) :
    Option (XChaCha_ctx × List Nat) :=
  xchacha_encrypt_bytes ctx c m tmp bytes

/-- The function `xchacha_keystream_bytes(ctx, stream, bytes)`. The call
`xchacha_encrypt_bytes(ctx,stream,stream,bytes)` reads each block of `stream`
before it stores that block, and never reads a stored block again. -/
def xchacha_keystream_bytes (ctx : XChaCha_ctx) (stream tmp : List Nat) (bytes : Nat) :
    Option (XChaCha_ctx × List Nat) :=
  let stream := List.replicate bytes 0 ++ stream.drop bytes
  xchacha_encrypt_bytes ctx stream stream tmp bytes

/-- The macro `xchacha_encrypt_blocks(ctx, plaintext, ciphertext, blocks)`, with
`blocks` a `uint32_t`: the product is taken in 32-bit unsigned arithmetic. -/
def xchacha_encrypt_blocks (ctx : XChaCha_ctx) (plaintext ciphertext tmp : List Nat)
    (blocks : Nat) : Option (XChaCha_ctx × List Nat) :=
  xchacha_encrypt_bytes ctx plaintext ciphertext tmp ((blocks * XCHACHA_BLOCKLENGTH) % 2 ^ 32)

/-- The macro `xchacha_decrypt_blocks(ctx, ciphertext, plaintext, blocks)`. -/
def xchacha_decrypt_blocks (ctx : XChaCha_ctx) (ciphertext plaintext tmp : List Nat)
    (blocks : Nat) : Option (XChaCha_ctx × List Nat) :=
  xchacha_decrypt_bytes ctx ciphertext plaintext tmp ((blocks * XCHACHA_BLOCKLENGTH) % 2 ^ 32)

/-- The macro `xchacha_keystream_blocks(ctx, keystream, blocks)`. -/
def xchacha_keystream_blocks (ctx : XChaCha_ctx) (keystream tmp : List Nat)
    (blocks : Nat) : Option (XChaCha_ctx × List Nat) :=
  xchacha_keystream_bytes ctx keystream tmp ((blocks * XCHACHA_BLOCKLENGTH) % 2 ^ 32)

/-! ## Notions of the specification

The definitions below follow the words of the specification; the theorems
relate them to the definitions above, which follow the source. -/

/-- A buffer all of whose entries are `uint8_t` values. -/
def IsBytes (l : List Nat) : Prop := ∀ b ∈ l, b < 256

instance (l : List Nat) : Decidable (IsBytes l) := by
  unfold IsBytes
  infer_instance

/-- The sixteen words of a state, in order. -/
def Words16.toList (x : Words16) : List Nat :=
  [x.w0, x.w1, x.w2, x.w3, x.w4, x.w5, x.w6, x.w7, x.w8, x.w9, x.w10, x.w11, x.w12, x.w13,
    x.w14, x.w15]

/-- Rotation of a 32-bit word to the left by `n` bits. -/
def rotl (v n : Nat) : Nat := ((v <<< n) % 2 ^ 32) ||| (v >>> (32 - n))

/-- Quarter round of the specification (section 4.2): `a += b; d = rotl(d ^ a, 16);
c += d; b = rotl(b ^ c, 12); a += b; d = rotl(d ^ a, 8); c += d; b = rotl(b ^ c, 7)`,
additions modulo `2^32`. -/
def quarter_round (a b c d : Nat) : Nat × Nat × Nat × Nat :=
  let a := (a + b) % 2 ^ 32
  let d := rotl (d ^^^ a) 16
  let c := (c + d) % 2 ^ 32
  let b := rotl (b ^^^ c) 12
  let a := (a + b) % 2 ^ 32
  let d := rotl (d ^^^ a) 8
  let c := (c + d) % 2 ^ 32
  let b := rotl (b ^^^ c) 7
  (a, b, c, d)

/-- Column round of the specification: quarter rounds on (0,4,8,12), (1,5,9,13),
(2,6,10,14), (3,7,11,15). -/
def column_round (x : Words16) : Words16 :=
  let q0 := quarter_round x.w0 x.w4 x.w8 x.w12
  let q1 := quarter_round x.w1 x.w5 x.w9 x.w13
  let q2 := quarter_round x.w2 x.w6 x.w10 x.w14
  let q3 := quarter_round x.w3 x.w7 x.w11 x.w15
  { w0 := q0.1, w4 := q0.2.1, w8 := q0.2.2.1, w12 := q0.2.2.2,
    w1 := q1.1, w5 := q1.2.1, w9 := q1.2.2.1, w13 := q1.2.2.2,
    w2 := q2.1, w6 := q2.2.1, w10 := q2.2.2.1, w14 := q2.2.2.2,
    w3 := q3.1, w7 := q3.2.1, w11 := q3.2.2.1, w15 := q3.2.2.2 }

/-- Diagonal round of the specification: quarter rounds on (0,5,10,15),
(1,6,11,12), (2,7,8,13), (3,4,9,14). -/
def diagonal_round (x : Words16) : Words16 :=
  let q0 := quarter_round x.w0 x.w5 x.w10 x.w15
  let q1 := quarter_round x.w1 x.w6 x.w11 x.w12
  let q2 := quarter_round x.w2 x.w7 x.w8 x.w13
  let q3 := quarter_round x.w3 x.w4 x.w9 x.w14
  { w0 := q0.1, w5 := q0.2.1, w10 := q0.2.2.1, w15 := q0.2.2.2,
    w1 := q1.1, w6 := q1.2.1, w11 := q1.2.2.1, w12 := q1.2.2.2,
    w2 := q2.1, w7 := q2.2.1, w8 := q2.2.2.1, w13 := q2.2.2.2,
    w3 := q3.1, w4 := q3.2.1, w9 := q3.2.2.1, w14 := q3.2.2.2 }

/-- Double round of the specification: the column round, then the diagonal round. -/
def double_round (x : Words16) : Words16 := diagonal_round (column_round x)

/-- The permutation `P` of the specification: 10 double rounds. -/
def permutation (x : Words16) : Words16 := double_round^[10] x

/-- Little-endian encoding of a 32-bit word as four bytes. -/
def le_bytes (w : Nat) : List Nat :=
  [w % 256, w / 2 ^ 8 % 256, w / 2 ^ 16 % 256, w / 2 ^ 24 % 256]

/-- Little-endian serialization of a list of words. -/
def serialize : List Nat → List Nat
  | [] => []
  | w :: ws => le_bytes w ++ serialize ws

/-- Word `i` of a byte buffer decoded as little-endian, that is the bytes at
positions `4 * i .. 4 * i + 3`. -/
def le_word (p : List Nat) (i : Nat) : Nat :=
  p.getD (4 * i) 0 + 2 ^ 8 * p.getD (4 * i + 1) 0 + 2 ^ 16 * p.getD (4 * i + 2) 0
    + 2 ^ 24 * p.getD (4 * i + 3) 0

/-- Word-wise addition modulo `2^32` of two states (the feed-forward). -/
def add_words (x j : Words16) : Words16 :=
  { w0 := (x.w0 + j.w0) % 2 ^ 32, w1 := (x.w1 + j.w1) % 2 ^ 32,
    w2 := (x.w2 + j.w2) % 2 ^ 32, w3 := (x.w3 + j.w3) % 2 ^ 32,
    w4 := (x.w4 + j.w4) % 2 ^ 32, w5 := (x.w5 + j.w5) % 2 ^ 32,
    w6 := (x.w6 + j.w6) % 2 ^ 32, w7 := (x.w7 + j.w7) % 2 ^ 32,
    w8 := (x.w8 + j.w8) % 2 ^ 32, w9 := (x.w9 + j.w9) % 2 ^ 32,
    w10 := (x.w10 + j.w10) % 2 ^ 32, w11 := (x.w11 + j.w11) % 2 ^ 32,
    w12 := (x.w12 + j.w12) % 2 ^ 32, w13 := (x.w13 + j.w13) % 2 ^ 32,
    w14 := (x.w14 + j.w14) % 2 ^ 32, w15 := (x.w15 + j.w15) % 2 ^ 32 }

/-- The 64-byte keystream block of a state `s`: the little-endian serialization
of `P(s) + s`. -/
def block_fn (s : Words16) : List Nat := serialize (add_words (permutation s) s).toList

/-- The 64-bit block counter of a state: word 12 is the low half, word 13 the
high half. -/
def counter (s : Words16) : Nat := s.w12 + 2 ^ 32 * s.w13

/-- The state `s` with its 64-bit counter replaced by `n`. -/
def with_counter (s : Words16) (n : Nat) : Words16 :=
  { s with w12 := n % 2 ^ 32, w13 := n / 2 ^ 32 % 2 ^ 32 }

/-- Keystream byte `K(i)` of the specification for the state `s`: byte `i mod 64`
of the block of `s` with its counter advanced by `i / 64` modulo `2^64`. -/
def keystream_byte (s : Words16) (i : Nat) : Nat :=
  (block_fn (with_counter s ((counter s + i / 64) % 2 ^ 64))).getD (i % 64) 0

/-- The initial state of HChaCha20 in the specification (section 4.3): the four
constants, the key as 8 little-endian words, the input as 4 little-endian
words. -/
def hchacha20_state (k n : List Nat) : Words16 :=
  { w0 := 0x61707865, w1 := 0x3320646e, w2 := 0x79622d32, w3 := 0x6b206574,
    w4 := le_word k 0, w5 := le_word k 1, w6 := le_word k 2, w7 := le_word k 3,
    w8 := le_word k 4, w9 := le_word k 5, w10 := le_word k 6, w11 := le_word k 7,
    w12 := le_word n 0, w13 := le_word n 1, w14 := le_word n 2, w15 := le_word n 3 }

/-! ## Auxiliary definitions used in the proofs -/

/-- The 64 bytes of keystream that one iteration of the block loop of
`xchacha_encrypt_bytes` computes from the locals `j0 .. j15`, before the
input is mixed in. -/
def key_block (j : Words16) : List Nat :=
  encrypt_store (encrypt_plus (encrypt_rounds 20 j) j)

/-- The keystream of `n` consecutive iterations of the block loop. -/
def key_stream : Nat → Words16 → List Nat
  | 0, _ => []
  | n + 1, j => key_block j ++ key_stream n (encrypt_counter j)

/-- Byte-wise exclusive or of two buffers, as long as the shorter one. -/
def xor_bytes (ks m : List Nat) : List Nat := List.zipWith (fun a b => a ^^^ b) ks m

/-- Lines 205-242 on a list of words: each word is combined with the next four
input bytes and stored. -/
def store_xor : List Nat → List Nat → List Nat
  | [], _ => []
  | w :: ws, m => U32TO8_LITTLE (XOR w (U8TO32_LITTLE m)) ++ store_xor ws (m.drop 4)

/-- Lines 227-242 on a list of words. -/
def store_words : List Nat → List Nat
  | [] => []
  | w :: ws => U32TO8_LITTLE w ++ store_words ws

/-- The context stored by the block loop after `n` iterations from the locals
`j`. -/
def stored_ctx (ctx : XChaCha_ctx) (j : Words16) (n : Nat) : XChaCha_ctx :=
  { ctx with input :=
    { ctx.input with w12 := (encrypt_counter^[n] j).w12, w13 := (encrypt_counter^[n] j).w13 } }

/-- Encryption in two calls split at byte `k` of an `L`-byte message:
`xchacha_encrypt_bytes(ctx, m, c, k)` followed, on the context that call left, by
`xchacha_encrypt_bytes(ctx, m + k, c + k, L - k)`. The result is the final context
and the buffer `c`. -/
def encrypt_split (ctx : XChaCha_ctx) (m c tmp1 tmp2 : List Nat) (k L : Nat) :
    Option (XChaCha_ctx × List Nat) :=
  match xchacha_encrypt_bytes ctx m c tmp1 k with
  | none => none
  | some (ctx1, c1) =>
    match xchacha_encrypt_bytes ctx1 (m.drop k) (c1.drop k) tmp2 (L - k) with
    | none => none
    | some (ctx2, c2) => some (ctx2, c1.take k ++ c2)

/-- A sample context: the four constants, key words 1 .. 8, counter 0 and
nonce words 9, 10. -/
def sample_ctx : XChaCha_ctx :=
  ⟨⟨0x61707865, 0x3320646e, 0x79622d32, 0x6b206574, 1, 2, 3, 4, 5, 6, 7, 8, 0, 0, 9, 10⟩⟩

/-- A sample content of the scratch array `tmp[64]`. -/
def sample_tmp : List Nat := List.replicate 64 0xAA

/-! ## Further notions for the claims on HChaCha20, the quarter round and the
permutation -/

/-- What `xchacha_hchacha20` would store if, after its round loop, the initial
state were added back word by word as lines 188-203 of `xchacha_encrypt_bytes`
do, before the same eight words are stored. -/
def hchacha20_feed_forward (inp k : List Nat) : List Nat :=
  let j : Words16 :=
    { w0 := 0x61707865, w1 := 0x3320646e, w2 := 0x79622d32, w3 := 0x6b206574,
      w4 := U8TO32_LITTLE (k.drop 0), w5 := U8TO32_LITTLE (k.drop 4),
      w6 := U8TO32_LITTLE (k.drop 8), w7 := U8TO32_LITTLE (k.drop 12),
      w8 := U8TO32_LITTLE (k.drop 16), w9 := U8TO32_LITTLE (k.drop 20),
      w10 := U8TO32_LITTLE (k.drop 24), w11 := U8TO32_LITTLE (k.drop 28),
      w12 := U8TO32_LITTLE (inp.drop 0), w13 := U8TO32_LITTLE (inp.drop 4),
      w14 := U8TO32_LITTLE (inp.drop 8), w15 := U8TO32_LITTLE (inp.drop 12) }
  let x := hchacha20_rounds 10 j
  let x := encrypt_plus x j
  U32TO8_LITTLE x.w0 ++ U32TO8_LITTLE x.w1 ++ U32TO8_LITTLE x.w2 ++ U32TO8_LITTLE x.w3
    ++ U32TO8_LITTLE x.w12 ++ U32TO8_LITTLE x.w13 ++ U32TO8_LITTLE x.w14
    ++ U32TO8_LITTLE x.w15

/-- Left rotation of a 32-bit word by `n` bits, `0 < n < 32`, in arithmetic: the low
`32 - n` bits move up by `n` places and the high `n` bits come back in at the
bottom. -/
def rotate_left32 (v n : Nat) : Nat := (v % 2 ^ (32 - n)) * 2 ^ n + v / 2 ^ (32 - n)

/-- The quarter round of the specification, with `rotate_left32` as its rotation. -/
def quarter_round_rot (a b c d : Nat) : Nat × Nat × Nat × Nat :=
  let a := (a + b) % 2 ^ 32
  let d := rotate_left32 (d ^^^ a) 16
  let c := (c + d) % 2 ^ 32
  let b := rotate_left32 (b ^^^ c) 12
  let a := (a + b) % 2 ^ 32
  let d := rotate_left32 (d ^^^ a) 8
  let c := (c + d) % 2 ^ 32
  let b := rotate_left32 (b ^^^ c) 7
  (a, b, c, d)

/-- Four 32-bit words. -/
def IsWords4 (q : Nat × Nat × Nat × Nat) : Prop :=
  q.1 < 2 ^ 32 ∧ q.2.1 < 2 ^ 32 ∧ q.2.2.1 < 2 ^ 32 ∧ q.2.2.2 < 2 ^ 32

instance (q : Nat × Nat × Nat × Nat) : Decidable (IsWords4 q) := by
  unfold IsWords4
  infer_instance

/-- A state of sixteen 32-bit words. -/
def Words16.valid (x : Words16) : Prop :=
  x.w0 < 2 ^ 32 ∧ x.w1 < 2 ^ 32 ∧ x.w2 < 2 ^ 32 ∧ x.w3 < 2 ^ 32 ∧ x.w4 < 2 ^ 32
    ∧ x.w5 < 2 ^ 32 ∧ x.w6 < 2 ^ 32 ∧ x.w7 < 2 ^ 32 ∧ x.w8 < 2 ^ 32 ∧ x.w9 < 2 ^ 32
    ∧ x.w10 < 2 ^ 32 ∧ x.w11 < 2 ^ 32 ∧ x.w12 < 2 ^ 32 ∧ x.w13 < 2 ^ 32 ∧ x.w14 < 2 ^ 32
    ∧ x.w15 < 2 ^ 32

instance (x : Words16) : Decidable x.valid := by
  unfold Words16.valid
  infer_instance

/-- The macro `QUARTERROUND` as a map on quadruples of words. -/
def QUARTERROUND4 (q : Nat × Nat × Nat × Nat) : Nat × Nat × Nat × Nat :=
  QUARTERROUND q.1 q.2.1 q.2.2.1 q.2.2.2

/-- The quarter round undone: its eight steps in reverse order, each
subtraction modulo `2^32` and each rotation to the right (left by `32 - n`). -/
def quarter_round_inv (a b c d : Nat) : Nat × Nat × Nat × Nat :=
  let b := rotl b 25 ^^^ c
  let c := (c + 2 ^ 32 - d) % 2 ^ 32
  let d := rotl d 24 ^^^ a
  let a := (a + 2 ^ 32 - b) % 2 ^ 32
  let b := rotl b 20 ^^^ c
  let c := (c + 2 ^ 32 - d) % 2 ^ 32
  let d := rotl d 16 ^^^ a
  let a := (a + 2 ^ 32 - b) % 2 ^ 32
  (a, b, c, d)

/-- The column round undone. -/
def column_round_inv (x : Words16) : Words16 :=
  let q0 := quarter_round_inv x.w0 x.w4 x.w8 x.w12
  let q1 := quarter_round_inv x.w1 x.w5 x.w9 x.w13
  let q2 := quarter_round_inv x.w2 x.w6 x.w10 x.w14
  let q3 := quarter_round_inv x.w3 x.w7 x.w11 x.w15
  { w0 := q0.1, w4 := q0.2.1, w8 := q0.2.2.1, w12 := q0.2.2.2,
    w1 := q1.1, w5 := q1.2.1, w9 := q1.2.2.1, w13 := q1.2.2.2,
    w2 := q2.1, w6 := q2.2.1, w10 := q2.2.2.1, w14 := q2.2.2.2,
    w3 := q3.1, w7 := q3.2.1, w11 := q3.2.2.1, w15 := q3.2.2.2 }

/-- The diagonal round undone. -/
def diagonal_round_inv (x : Words16) : Words16 :=
  let q0 := quarter_round_inv x.w0 x.w5 x.w10 x.w15
  let q1 := quarter_round_inv x.w1 x.w6 x.w11 x.w12
  let q2 := quarter_round_inv x.w2 x.w7 x.w8 x.w13
  let q3 := quarter_round_inv x.w3 x.w4 x.w9 x.w14
  { w0 := q0.1, w5 := q0.2.1, w10 := q0.2.2.1, w15 := q0.2.2.2,
    w1 := q1.1, w6 := q1.2.1, w11 := q1.2.2.1, w12 := q1.2.2.2,
    w2 := q2.1, w7 := q2.2.1, w8 := q2.2.2.1, w13 := q2.2.2.2,
    w3 := q3.1, w4 := q3.2.1, w9 := q3.2.2.1, w14 := q3.2.2.2 }

/-! ## The macros as arithmetic -/

theorem U8V_eq (v : Nat) : U8V v = v % 256 := by
  have h := Nat.and_pow_two_sub_one_eq_mod (v % 2 ^ 8) 8
  unfold U8V
  norm_num at h ⊢
  exact h

theorem U32V_eq (v : Nat) : U32V v = v % 2 ^ 32 := by
  have h := Nat.and_pow_two_sub_one_eq_mod (v % 2 ^ 32) 32
  unfold U32V
  norm_num at h ⊢
  exact h

theorem U8V_lt (v : Nat) : U8V v < 256 := by
  rw [U8V_eq]
  exact Nat.mod_lt _ (by norm_num)

theorem PLUS_eq (v w : Nat) : PLUS v w = (v + w) % 2 ^ 32 := by
  unfold PLUS
  exact U32V_eq _

theorem PLUS_lt (v w : Nat) : PLUS v w < 2 ^ 32 := by
  rw [PLUS_eq]
  exact Nat.mod_lt _ (by norm_num)

theorem ROTATE_eq (v n : Nat) : ROTATE v n = rotl v n := by
  unfold ROTATE ROTL32 rotl
  rw [U32V_eq]

theorem QUARTERROUND_eq (a b c d : Nat) : QUARTERROUND a b c d = quarter_round a b c d := by
  simp only [QUARTERROUND, quarter_round, PLUS_eq, ROTATE_eq, XOR]

theorem testBit_byte_high (b i : Nat) (h : b < 256) (hi : 8 ≤ i) : b.testBit i = false := by
  apply Nat.testBit_lt_two_pow
  calc b < 2 ^ 8 := h
    _ ≤ 2 ^ i := Nat.pow_le_pow_right (by norm_num) hi

theorem xor_byte0 (x b0 b1 b2 b3 : Nat) (h0 : b0 < 256) :
    (x ^^^ (b0 ||| b1 <<< 8 ||| b2 <<< 16 ||| b3 <<< 24)) % 2 ^ 8 = (x % 2 ^ 8) ^^^ b0 := by
  apply Nat.eq_of_testBit_eq
  intro i
  simp only [Nat.testBit_mod_two_pow, Nat.testBit_xor, Nat.testBit_or, Nat.testBit_shiftLeft]
  by_cases hi : i < 8
  · have e1 : ¬ (8 ≤ i) := by omega
    have e2 : ¬ (16 ≤ i) := by omega
    have e3 : ¬ (24 ≤ i) := by omega
    simp [hi, e1, e2, e3]
  · have t0 := testBit_byte_high b0 i h0 (by omega)
    simp [hi, t0]

theorem xor_byte1 (x b0 b1 b2 b3 : Nat) (h0 : b0 < 256) (h1 : b1 < 256) :
    ((x ^^^ (b0 ||| b1 <<< 8 ||| b2 <<< 16 ||| b3 <<< 24)) >>> 8) % 2 ^ 8
      = ((x >>> 8) % 2 ^ 8) ^^^ b1 := by
  apply Nat.eq_of_testBit_eq
  intro i
  simp only [Nat.testBit_mod_two_pow, Nat.testBit_xor, Nat.testBit_or, Nat.testBit_shiftLeft,
    Nat.testBit_shiftRight]
  by_cases hi : i < 8
  · have e1 : 8 ≤ 8 + i := by omega
    have e2 : ¬ (16 ≤ 8 + i) := by omega
    have e3 : ¬ (24 ≤ 8 + i) := by omega
    have t0 := testBit_byte_high b0 (8 + i) h0 (by omega)
    simp [hi, e1, e2, e3, t0]
  · have t1 := testBit_byte_high b1 i h1 (by omega)
    simp [hi, t1]

theorem xor_byte2 (x b0 b1 b2 b3 : Nat) (h0 : b0 < 256) (h1 : b1 < 256) (h2 : b2 < 256) :
    ((x ^^^ (b0 ||| b1 <<< 8 ||| b2 <<< 16 ||| b3 <<< 24)) >>> 16) % 2 ^ 8
      = ((x >>> 16) % 2 ^ 8) ^^^ b2 := by
  apply Nat.eq_of_testBit_eq
  intro i
  simp only [Nat.testBit_mod_two_pow, Nat.testBit_xor, Nat.testBit_or, Nat.testBit_shiftLeft,
    Nat.testBit_shiftRight]
  by_cases hi : i < 8
  · have e1 : 8 ≤ 16 + i := by omega
    have e2 : 16 ≤ 16 + i := by omega
    have e3 : ¬ (24 ≤ 16 + i) := by omega
    have e4 : 16 + i - 8 = 8 + i := by omega
    have t0 := testBit_byte_high b0 (16 + i) h0 (by omega)
    have t1 := testBit_byte_high b1 (8 + i) h1 (by omega)
    simp [hi, e1, e2, e3, e4, t0, t1]
  · have t2 := testBit_byte_high b2 i h2 (by omega)
    simp [hi, t2]

theorem xor_byte3 (x b0 b1 b2 b3 : Nat) (h0 : b0 < 256) (h1 : b1 < 256) (h2 : b2 < 256)
    (h3 : b3 < 256) :
    ((x ^^^ (b0 ||| b1 <<< 8 ||| b2 <<< 16 ||| b3 <<< 24)) >>> 24) % 2 ^ 8
      = ((x >>> 24) % 2 ^ 8) ^^^ b3 := by
  apply Nat.eq_of_testBit_eq
  intro i
  simp only [Nat.testBit_mod_two_pow, Nat.testBit_xor, Nat.testBit_or, Nat.testBit_shiftLeft,
    Nat.testBit_shiftRight]
  by_cases hi : i < 8
  · have e1 : 8 ≤ 24 + i := by omega
    have e2 : 16 ≤ 24 + i := by omega
    have e3 : 24 ≤ 24 + i := by omega
    have e4 : 24 + i - 8 = 16 + i := by omega
    have e5 : 24 + i - 16 = 8 + i := by omega
    have t0 := testBit_byte_high b0 (24 + i) h0 (by omega)
    have t1 := testBit_byte_high b1 (16 + i) h1 (by omega)
    have t2 := testBit_byte_high b2 (8 + i) h2 (by omega)
    simp [hi, e1, e2, e3, e4, e5, t0, t1, t2]
  · have t3 := testBit_byte_high b3 i h3 (by omega)
    simp [hi, t3]

/-- Storing a word that was combined with four input bytes stores the bytes of
the word, each combined with the matching input byte. -/
theorem store_xor_word (x b0 b1 b2 b3 : Nat) (rest : List Nat)
    (h0 : b0 < 256) (h1 : b1 < 256) (h2 : b2 < 256) (h3 : b3 < 256) :
    U32TO8_LITTLE (XOR x (U8TO32_LITTLE (b0 :: b1 :: b2 :: b3 :: rest)))
      = xor_bytes (U32TO8_LITTLE x) [b0, b1, b2, b3] := by
  have k0 := xor_byte0 x b0 b1 b2 b3 h0
  have k1 := xor_byte1 x b0 b1 b2 b3 h0 h1
  have k2 := xor_byte2 x b0 b1 b2 b3 h0 h1 h2
  have k3 := xor_byte3 x b0 b1 b2 b3 h0 h1 h2 h3
  norm_num at k0 k1 k2 k3
  simp [U32TO8_LITTLE, U8TO32_LITTLE, XOR, xor_bytes, U8V_eq, k0, k1, k2, k3]

/-! ## Byte buffers -/

theorem IsBytes_append {a b : List Nat} (ha : IsBytes a) (hb : IsBytes b) : IsBytes (a ++ b) := by
  intro x hx
  rcases List.mem_append.mp hx with h | h
  · exact ha x h
  · exact hb x h

theorem IsBytes_take {a : List Nat} (n : Nat) (ha : IsBytes a) : IsBytes (a.take n) :=
  fun x hx => ha x (List.mem_of_mem_take hx)

theorem IsBytes_drop {a : List Nat} (n : Nat) (ha : IsBytes a) : IsBytes (a.drop n) :=
  fun x hx => ha x (List.mem_of_mem_drop hx)

theorem IsBytes_U32TO8 (v : Nat) : IsBytes (U32TO8_LITTLE v) := by
  intro x hx
  simp only [U32TO8_LITTLE, List.mem_cons, List.mem_singleton, List.not_mem_nil, or_false] at hx
  rcases hx with h | h | h | h <;> rw [h] <;> exact U8V_lt _

theorem store_words_length (ws : List Nat) : (store_words ws).length = 4 * ws.length := by
  induction ws with
  | nil => rfl
  | cons w ws ih =>
    simp only [store_words, List.length_append, ih, List.length_cons, U32TO8_LITTLE,
      List.length_nil]
    omega

theorem IsBytes_store_words (ws : List Nat) : IsBytes (store_words ws) := by
  induction ws with
  | nil => intro x hx; cases hx
  | cons w ws ih => exact IsBytes_append (IsBytes_U32TO8 w) ih

theorem xor_bytes_append (a b c d : List Nat) (h : a.length = c.length) :
    xor_bytes (a ++ b) (c ++ d) = xor_bytes a c ++ xor_bytes b d := by
  unfold xor_bytes
  exact List.zipWith_append _ _ _ _ _ h

theorem xor_bytes_length (a b : List Nat) : (xor_bytes a b).length = min a.length b.length := by
  unfold xor_bytes
  exact List.length_zipWith _ _ _

theorem xor_bytes_take (a b : List Nat) (n : Nat) :
    (xor_bytes a b).take n = xor_bytes (a.take n) (b.take n) := by
  unfold xor_bytes
  exact List.take_zipWith

theorem xor_bytes_take_left (a b : List Nat) (n : Nat) (h : b.length ≤ n) :
    xor_bytes (a.take n) b = xor_bytes a b := by
  induction a generalizing b n with
  | nil => simp [xor_bytes]
  | cons x a ih =>
    cases b with
    | nil => simp [xor_bytes]
    | cons y b =>
      cases n with
      | zero => simp at h
      | succ n =>
        have hb : b.length ≤ n := by simpa using h
        have := ih b n hb
        simp only [xor_bytes] at this ⊢
        simp [this]

theorem xor_bytes_take_right (a b : List Nat) (n : Nat) (h : a.length ≤ n) :
    xor_bytes a (b.take n) = xor_bytes a b := by
  induction a generalizing b n with
  | nil => simp [xor_bytes]
  | cons x a ih =>
    cases b with
    | nil => simp [xor_bytes]
    | cons y b =>
      cases n with
      | zero => simp at h
      | succ n =>
        have ha : a.length ≤ n := by simpa using h
        have := ih b n ha
        simp only [xor_bytes] at this ⊢
        simp [this]

theorem xor_lt_256 {a b : Nat} (ha : a < 256) (hb : b < 256) : a ^^^ b < 256 := by
  have := @Nat.xor_lt_two_pow a b 8 (by norm_num; exact ha) (by norm_num; exact hb)
  norm_num at this
  exact this

theorem IsBytes_xor_bytes {a b : List Nat} (ha : IsBytes a) (hb : IsBytes b) :
    IsBytes (xor_bytes a b) := by
  induction a generalizing b with
  | nil => intro x hx; simp [xor_bytes] at hx
  | cons x a ih =>
    cases b with
    | nil => intro y hy; simp [xor_bytes] at hy
    | cons y b =>
      intro z hz
      simp only [xor_bytes, List.zipWith_cons_cons, List.mem_cons] at hz
      rcases hz with h | h
      · rw [h]
        exact xor_lt_256 (ha x (List.mem_cons_self _ _)) (hb y (List.mem_cons_self _ _))
      · exact ih (fun w hw => ha w (List.mem_cons_of_mem _ hw))
          (fun w hw => hb w (List.mem_cons_of_mem _ hw)) z h

/-- Combining twice with the same keystream gives the input back. -/
theorem xor_bytes_cancel (ks m : List Nat) (h : m.length ≤ ks.length) :
    xor_bytes ks (xor_bytes ks m) = m := by
  induction ks generalizing m with
  | nil =>
    cases m with
    | nil => rfl
    | cons y m => simp at h
  | cons x ks ih =>
    cases m with
    | nil => simp [xor_bytes]
    | cons y m =>
      have hm : m.length ≤ ks.length := by simpa using h
      have := ih m hm
      simp only [xor_bytes] at this ⊢
      have hx : x ^^^ (x ^^^ y) = y := by
        rw [← Nat.xor_assoc, Nat.xor_self, Nat.zero_xor]
      simp [this, hx]

/-- Lines 205-242 store the keystream words combined byte by byte with the
input. -/
theorem store_xor_eq (ws m : List Nat) (hlen : 4 * ws.length ≤ m.length)
    (hm : IsBytes (m.take (4 * ws.length))) :
    store_xor ws m = xor_bytes (store_words ws) m := by
  induction ws generalizing m with
  | nil => simp [store_xor, store_words, xor_bytes]
  | cons w ws ih =>
    match m, hlen, hm with
    | b0 :: b1 :: b2 :: b3 :: rest, hlen, hm =>
      have hlen2 : 4 * ws.length ≤ rest.length := by
        simp only [List.length_cons] at hlen
        omega
      have e : 4 * (w :: ws).length = 4 * ws.length + 4 := by
        simp only [List.length_cons]
        omega
      rw [e] at hm
      simp only [List.take_succ_cons] at hm
      have h0 : b0 < 256 := hm b0 (by simp)
      have h1 : b1 < 256 := hm b1 (by simp)
      have h2 : b2 < 256 := hm b2 (by simp)
      have h3 : b3 < 256 := hm b3 (by simp)
      have hrest : IsBytes (rest.take (4 * ws.length)) := by
        intro x hx
        exact hm x (by simp [hx])
      have := ih rest hlen2 hrest
      simp only [store_xor, store_words]
      rw [store_xor_word w b0 b1 b2 b3 rest h0 h1 h2 h3]
      have e2 : (b0 :: b1 :: b2 :: b3 :: rest) = [b0, b1, b2, b3] ++ rest := rfl
      rw [e2, xor_bytes_append _ _ _ _ (by simp [U32TO8_LITTLE])]
      simp [this]
    | [], hlen, _ => simp at hlen
    | [_], hlen, _ => simp at hlen; omega
    | [_, _], hlen, _ => simp at hlen; omega
    | [_, _, _], hlen, _ => simp at hlen; omega

theorem encrypt_store_eq (x : Words16) : encrypt_store x = store_words x.toList := by
  simp [encrypt_store, store_words, Words16.toList]

theorem encrypt_store_xor_eq (x : Words16) (m : List Nat) :
    encrypt_store (encrypt_xor x m) = store_xor x.toList m := by
  simp [encrypt_store, encrypt_xor, store_xor, Words16.toList]

theorem encrypt_store_length (x : Words16) : (encrypt_store x).length = 64 := by
  rw [encrypt_store_eq, store_words_length]
  rfl

theorem IsBytes_encrypt_store (x : Words16) : IsBytes (encrypt_store x) := by
  rw [encrypt_store_eq]
  exact IsBytes_store_words _

/-- The 64 bytes stored by one iteration of the block loop are the keystream
block combined byte by byte with the 64 input bytes. -/
theorem encrypt_block_eq (x : Words16) (m : List Nat) (hlen : 64 ≤ m.length)
    (hm : IsBytes (m.take 64)) :
    encrypt_store (encrypt_xor x m) = xor_bytes (encrypt_store x) m := by
  rw [encrypt_store_xor_eq, encrypt_store_eq]
  exact store_xor_eq _ _ (by simpa [Words16.toList] using hlen) (by simpa [Words16.toList] using hm)

/-! ## The block loop -/

theorem key_block_length (j : Words16) : (key_block j).length = 64 :=
  encrypt_store_length _

theorem IsBytes_key_block (j : Words16) : IsBytes (key_block j) :=
  IsBytes_encrypt_store _

theorem key_stream_length (n : Nat) (j : Words16) : (key_stream n j).length = 64 * n := by
  induction n generalizing j with
  | zero => rfl
  | succ n ih =>
    simp only [key_stream, List.length_append, key_block_length, ih]
    omega

theorem IsBytes_key_stream (n : Nat) (j : Words16) : IsBytes (key_stream n j) := by
  induction n generalizing j with
  | zero => intro x hx; cases hx
  | succ n ih => exact IsBytes_append (IsBytes_key_block j) (ih _)

theorem stored_ctx_succ (ctx : XChaCha_ctx) (j : Words16) (n : Nat) :
    stored_ctx ctx (encrypt_counter j) n = stored_ctx ctx j (n + 1) := by
  simp only [stored_ctx, Function.iterate_succ_apply]

theorem key_stream_succ (n : Nat) (j : Words16) :
    key_stream (n + 1) j = key_block j ++ key_stream n (encrypt_counter j) := rfl

theorem key_stream_one (j : Words16) : key_stream 1 j = key_block j := by
  rw [key_stream_succ]
  exact List.append_nil _

theorem take_split (m : List Nat) (bytes : Nat) (h : 64 ≤ bytes) :
    m.take bytes = m.take 64 ++ (m.drop 64).take (bytes - 64) := by
  have h1 := List.take_add m 64 (bytes - 64)
  have h2 : 64 + (bytes - 64) = bytes := by omega
  rw [h2] at h1
  exact h1

/-- One iteration of the block loop, the keystream block named. -/
theorem encrypt_loop_succ (fuel : Nat) (ctx : XChaCha_ctx) (j : Words16) (m c tmp : List Nat)
    (bytes : Nat) (hm : bytes ≤ m.length) (htmp : tmp.length = 64)
    (hmb : IsBytes (m.take bytes)) (htb : IsBytes tmp) :
    encrypt_loop (fuel + 1) ctx j m c tmp bytes
      = if bytes ≤ 64 then
          some (stored_ctx ctx j 1, xor_bytes (key_block j) (m.take bytes) ++ c.drop bytes)
        else
          match encrypt_loop fuel ctx (encrypt_counter j) (m.drop 64) (c.drop 64) tmp
              (bytes - 64) with
          | some (ctx, rest) => some (ctx, xor_bytes (key_block j) (m.take 64) ++ rest)
          | none => none := by
  conv_lhs => rw [encrypt_loop]
  have hkb : encrypt_store (encrypt_plus (encrypt_rounds 20 j) j) = key_block j := rfl
  have hkl := key_block_length j
  by_cases hlt : bytes < 64
  · -- the partial block
    have hle : bytes ≤ 64 := by omega
    have hlen1 : 64 ≤ (copy_bytes tmp m bytes).length := by
      simp only [copy_bytes, List.length_append, List.length_take, List.length_drop]
      omega
    have hb1 : IsBytes ((copy_bytes tmp m bytes).take 64) :=
      IsBytes_take _ (IsBytes_append hmb (IsBytes_drop _ htb))
    simp only [hlt, hle, if_true]
    rw [encrypt_block_eq _ _ hlen1 hb1, hkb]
    generalize key_block j = kb at hkl ⊢
    simp only [stored_ctx, Function.iterate_one, copy_bytes]
    have hxl : bytes ≤ (xor_bytes kb (List.take bytes m ++ List.drop bytes tmp)).length := by
      rw [xor_bytes_length, hkl]
      simp only [List.length_append, List.length_take, List.length_drop]
      omega
    rw [List.take_append_of_le_length hxl, xor_bytes_take]
    have ht : (List.take bytes m ++ List.drop bytes tmp).take bytes = List.take bytes m := by
      rw [List.take_append_of_le_length (by simp; omega)]
      simp
    rw [ht, xor_bytes_take_left _ _ _ (by simp)]
  · by_cases heq : bytes = 64
    · -- the last block is a whole block
      have hle : bytes ≤ 64 := by omega
      have hb1 : IsBytes (m.take 64) := by rw [heq] at hmb; exact hmb
      simp only [hlt, hle, if_false, if_true]
      rw [encrypt_block_eq _ _ (by omega) hb1, hkb]
      generalize key_block j = kb at hkl ⊢
      simp only [stored_ctx, Function.iterate_one]
      rw [heq, xor_bytes_take_right _ _ _ (by omega)]
    · -- a whole block, more to come
      have hgt : ¬ bytes ≤ 64 := by omega
      have hb1 : IsBytes (m.take 64) := by
        intro x hx
        apply hmb x
        rw [take_split m bytes (by omega)]
        exact List.mem_append_left _ hx
      simp only [hlt, hgt, if_false]
      rw [encrypt_block_eq _ _ (by omega) hb1, hkb]
      generalize key_block j = kb at hkl ⊢
      rw [xor_bytes_take_right _ _ _ (by omega)]

/-- Closed form of the block loop: with fuel for `ceil(bytes / 64)` iterations
it returns, the output being the input combined with the keystream of that
many blocks, and the counter advanced that many times. -/
theorem encrypt_loop_eq (fuel : Nat) :
    ∀ (ctx : XChaCha_ctx) (j : Words16) (m c tmp : List Nat) (bytes : Nat),
      0 < bytes → bytes ≤ 64 * fuel → bytes ≤ m.length → tmp.length = 64 →
      IsBytes (m.take bytes) → IsBytes tmp →
      encrypt_loop fuel ctx j m c tmp bytes
        = some (stored_ctx ctx j ((bytes + 63) / 64),
            xor_bytes (key_stream ((bytes + 63) / 64) j) (m.take bytes) ++ c.drop bytes) := by
  induction fuel with
  | zero =>
    intro ctx j m c tmp bytes h0 hf
    omega
  | succ fuel ih =>
    intro ctx j m c tmp bytes h0 hf hm htmp hmb htb
    rw [encrypt_loop_succ fuel ctx j m c tmp bytes hm htmp hmb htb]
    have hkl := key_block_length j
    by_cases hle : bytes ≤ 64
    · have hn : (bytes + 63) / 64 = 1 := by omega
      rw [if_pos hle, hn, key_stream_one]
    · have hrec := ih ctx (encrypt_counter j) (m.drop 64) (c.drop 64) tmp (bytes - 64)
        (by omega) (by omega) (by simp only [List.length_drop]; omega) htmp
        (by
          intro x hx
          apply hmb x
          rw [take_split m bytes (by omega)]
          exact List.mem_append_right _ hx)
        htb
      simp only [hle, if_false]
      rw [hrec]
      have hn : (bytes + 63) / 64 = (bytes - 64 + 63) / 64 + 1 := by omega
      have e2 : (c.drop 64).drop (bytes - 64) = c.drop bytes := by
        have h2 : 64 + (bytes - 64) = bytes := by omega
        rw [List.drop_drop, h2]
      rw [hn, stored_ctx_succ, key_stream_succ]
      generalize key_block j = kb at hkl ⊢
      rw [take_split m bytes (by omega), e2, xor_bytes_append _ _ _ _
        (by rw [hkl, List.length_take]; omega)]
      simp only [List.append_assoc]

/-! ## The counter -/

theorem encrypt_counter_frame (j : Words16) :
    encrypt_counter j = { j with w12 := (encrypt_counter j).w12, w13 := (encrypt_counter j).w13 } := by
  rfl

theorem iterate_counter_frame (n : Nat) (j : Words16) :
    encrypt_counter^[n] j
      = { j with w12 := (encrypt_counter^[n] j).w12, w13 := (encrypt_counter^[n] j).w13 } := by
  induction n generalizing j with
  | zero => rfl
  | succ n ih =>
    rw [Function.iterate_succ_apply]
    have h := ih (encrypt_counter j)
    rw [h]
    rfl

theorem stored_ctx_input (ctx : XChaCha_ctx) (n : Nat) :
    (stored_ctx ctx ctx.input n).input = encrypt_counter^[n] ctx.input := by
  rw [iterate_counter_frame n ctx.input]
  rfl

theorem stored_ctx_zero (ctx : XChaCha_ctx) : stored_ctx ctx ctx.input 0 = ctx := rfl

theorem stored_ctx_add (ctx : XChaCha_ctx) (a b : Nat) :
    stored_ctx (stored_ctx ctx ctx.input a) (stored_ctx ctx ctx.input a).input b
      = stored_ctx ctx ctx.input (a + b) := by
  have h : ∀ (c1 c2 : XChaCha_ctx), c1.input = c2.input → c1 = c2 := by
    intro c1 c2 h
    cases c1
    cases c2
    simp only at h
    rw [h]
  apply h
  rw [stored_ctx_input, stored_ctx_input, stored_ctx_input, Nat.add_comm,
    Function.iterate_add_apply]

theorem key_stream_add (a b : Nat) (j : Words16) :
    key_stream (a + b) j = key_stream a j ++ key_stream b (encrypt_counter^[a] j) := by
  induction a generalizing j with
  | zero => simp [key_stream]
  | succ a ih =>
    have e : a + 1 + b = (a + b) + 1 := by omega
    rw [e, key_stream_succ, key_stream_succ, ih, Function.iterate_succ_apply, List.append_assoc]

/-- Lines 222-225 add one to the 64-bit counter, modulo `2^64`. -/
theorem encrypt_counter_eq (j : Words16) (h12 : j.w12 < 2 ^ 32) (h13 : j.w13 < 2 ^ 32) :
    encrypt_counter j = with_counter j ((counter j + 1) % 2 ^ 64) := by
  cases j
  simp only [encrypt_counter, with_counter, counter, PLUSONE, PLUS_eq] at h12 h13 ⊢
  rename_i w0 w1 w2 w3 w4 w5 w6 w7 w8 w9 w10 w11 w12 w13 w14 w15
  by_cases hc : w12 + 1 = 2 ^ 32
  · have e1 : (w12 + 1) % 2 ^ 32 = 0 := by omega
    have e2 : (w12 + 2 ^ 32 * w13 + 1) % 2 ^ 64 % 2 ^ 32 = 0 := by omega
    have e3 : (w12 + 2 ^ 32 * w13 + 1) % 2 ^ 64 / 2 ^ 32 % 2 ^ 32 = (w13 + 1) % 2 ^ 32 := by
      omega
    simp only [e1, e2, e3, if_true]
  · have e1 : (w12 + 1) % 2 ^ 32 = w12 + 1 := by omega
    have e2 : (w12 + 2 ^ 32 * w13 + 1) % 2 ^ 64 % 2 ^ 32 = w12 + 1 := by omega
    have e3 : (w12 + 2 ^ 32 * w13 + 1) % 2 ^ 64 / 2 ^ 32 % 2 ^ 32 = w13 := by omega
    have e4 : ¬ (w12 + 1 = 0) := by omega
    simp only [e1, e2, e3, e4, if_false]

theorem with_counter_w12_lt (j : Words16) (n : Nat) : (with_counter j n).w12 < 2 ^ 32 :=
  Nat.mod_lt _ (by norm_num)

theorem with_counter_w13_lt (j : Words16) (n : Nat) : (with_counter j n).w13 < 2 ^ 32 :=
  Nat.mod_lt _ (by norm_num)

theorem counter_with_counter (j : Words16) (n : Nat) (h : n < 2 ^ 64) :
    counter (with_counter j n) = n := by
  simp only [counter, with_counter]
  omega

theorem with_counter_with_counter (j : Words16) (a b : Nat) :
    with_counter (with_counter j a) b = with_counter j b := rfl

theorem with_counter_self (j : Words16) (h12 : j.w12 < 2 ^ 32) (h13 : j.w13 < 2 ^ 32) :
    with_counter j (counter j % 2 ^ 64) = j := by
  cases j
  simp only [with_counter, counter] at h12 h13 ⊢
  rename_i w0 w1 w2 w3 w4 w5 w6 w7 w8 w9 w10 w11 w12 w13 w14 w15
  have e2 : (w12 + 2 ^ 32 * w13) % 2 ^ 64 % 2 ^ 32 = w12 := by omega
  have e3 : (w12 + 2 ^ 32 * w13) % 2 ^ 64 / 2 ^ 32 % 2 ^ 32 = w13 := by omega
  rw [e2, e3]

/-- After `n` iterations of the block loop the 64-bit counter has advanced by `n`,
modulo `2^64`; the other words are unchanged. -/
theorem iterate_counter_eq (n : Nat) (j : Words16) (h12 : j.w12 < 2 ^ 32)
    (h13 : j.w13 < 2 ^ 32) :
    encrypt_counter^[n] j = with_counter j ((counter j + n) % 2 ^ 64) := by
  induction n with
  | zero => exact (with_counter_self j h12 h13).symm
  | succ n ih =>
    rw [Function.iterate_succ_apply', ih,
      encrypt_counter_eq _ (with_counter_w12_lt _ _) (with_counter_w13_lt _ _),
      counter_with_counter _ _ (Nat.mod_lt _ (by norm_num)), with_counter_with_counter]
    congr 1
    omega

/-! ## The code against the notions of the specification -/

theorem hchacha20_round_body_eq (x : Words16) : hchacha20_round_body x = double_round x := by
  simp only [hchacha20_round_body, double_round, column_round, diagonal_round, QUARTERROUND_eq]

theorem encrypt_round_body_eq (x : Words16) : encrypt_round_body x = double_round x := by
  simp only [encrypt_round_body, double_round, column_round, diagonal_round, QUARTERROUND_eq]

theorem hchacha20_rounds_eq (n : Nat) (x : Words16) :
    hchacha20_rounds n x = double_round^[n] x := by
  induction n generalizing x with
  | zero => rfl
  | succ n ih => rw [hchacha20_rounds, ih, hchacha20_round_body_eq, Function.iterate_succ_apply]

theorem encrypt_rounds_eq (n : Nat) (x : Words16) :
    encrypt_rounds (2 * n) x = double_round^[n] x := by
  induction n generalizing x with
  | zero => rfl
  | succ n ih =>
    have e : 2 * (n + 1) = 2 * n + 2 := by omega
    rw [e, encrypt_rounds, ih, encrypt_round_body_eq, Function.iterate_succ_apply]

theorem hchacha20_rounds_ten (x : Words16) : hchacha20_rounds 10 x = permutation x :=
  hchacha20_rounds_eq 10 x

theorem encrypt_rounds_twenty (x : Words16) : encrypt_rounds 20 x = permutation x :=
  encrypt_rounds_eq 10 x

theorem encrypt_plus_eq (x j : Words16) : encrypt_plus x j = add_words x j := by
  simp only [encrypt_plus, add_words, PLUS_eq]

theorem U32TO8_LITTLE_eq (w : Nat) : U32TO8_LITTLE w = le_bytes w := by
  simp only [U32TO8_LITTLE, le_bytes, U8V_eq, Nat.shiftRight_eq_div_pow]

theorem store_words_eq (ws : List Nat) : store_words ws = serialize ws := by
  induction ws with
  | nil => rfl
  | cons w ws ih => rw [store_words, serialize, ih, U32TO8_LITTLE_eq]

/-- The keystream block of one iteration is the block of the specification. -/
theorem key_block_eq (j : Words16) : key_block j = block_fn j := by
  rw [key_block, encrypt_store_eq, store_words_eq, encrypt_rounds_twenty, encrypt_plus_eq,
    block_fn]

theorem lor_shift_eq_add (a b k : Nat) (ha : a < 2 ^ k) : a ||| b <<< k = a + 2 ^ k * b := by
  rw [Nat.lor_comm, Nat.shiftLeft_eq, Nat.mul_comm b, ← Nat.mul_add_lt_is_or ha b]
  ring

/-- The macro `U8TO32_LITTLE` on four bytes is the little-endian value. -/
theorem U8TO32_LITTLE_bytes (b0 b1 b2 b3 : Nat) (rest : List Nat) (h0 : b0 < 256)
    (h1 : b1 < 256) (h2 : b2 < 256) :
    U8TO32_LITTLE (b0 :: b1 :: b2 :: b3 :: rest)
      = b0 + 2 ^ 8 * b1 + 2 ^ 16 * b2 + 2 ^ 24 * b3 := by
  simp only [U8TO32_LITTLE, List.getD_cons_zero, List.getD_cons_succ]
  rw [lor_shift_eq_add b0 b1 8 (by omega),
    lor_shift_eq_add (b0 + 2 ^ 8 * b1) b2 16 (by omega),
    lor_shift_eq_add (b0 + 2 ^ 8 * b1 + 2 ^ 16 * b2) b3 24 (by omega)]

theorem getD_lt_256 (p : List Nat) (hp : IsBytes p) (i : Nat) : p.getD i 0 < 256 := by
  by_cases h : i < p.length
  · rw [List.getD_eq_getElem _ _ h]
    exact hp _ (List.getElem_mem h)
  · rw [List.getD_eq_default _ _ (by omega)]
    norm_num

theorem U8TO32_LITTLE_getD (p : List Nat) :
    U8TO32_LITTLE p = U8TO32_LITTLE [p.getD 0 0, p.getD 1 0, p.getD 2 0, p.getD 3 0] := by
  simp [U8TO32_LITTLE]

/-- Reading the word at `p + 4 * i` gives word `i` of the buffer, decoded as
little-endian. -/
theorem U8TO32_LITTLE_drop (p : List Nat) (hp : IsBytes p) (i : Nat) :
    U8TO32_LITTLE (p.drop (4 * i)) = le_word p i := by
  rw [U8TO32_LITTLE_getD]
  have g : ∀ k, (p.drop (4 * i)).getD k 0 = p.getD (4 * i + k) 0 := by
    intro k
    simp [List.getD_eq_getElem?_getD, List.getElem?_drop]
  rw [g 0, g 1, g 2, g 3]
  rw [U8TO32_LITTLE_bytes _ _ _ _ _ (getD_lt_256 p hp _) (getD_lt_256 p hp _)
    (getD_lt_256 p hp _)]
  rfl

/-! ## Indexing the keystream -/

theorem key_stream_getD (n : Nat) :
    ∀ (j : Words16) (i : Nat), i < 64 * n →
      (key_stream n j).getD i 0 = (key_block (encrypt_counter^[i / 64] j)).getD (i % 64) 0 := by
  induction n with
  | zero => intro j i h; omega
  | succ n ih =>
    intro j i h
    rw [key_stream_succ]
    by_cases hi : i < 64
    · have e1 : i / 64 = 0 := by omega
      have e2 : i % 64 = i := by omega
      rw [e1, e2, Function.iterate_zero, id, List.getD_append _ _ _ _ (by rw [key_block_length]; exact hi)]
    · have e1 : i / 64 = (i - 64) / 64 + 1 := by omega
      have e2 : i % 64 = (i - 64) % 64 := by omega
      rw [List.getD_append_right _ _ _ _ (by rw [key_block_length]; omega), key_block_length,
        ih _ _ (by omega), e1, e2, Function.iterate_succ_apply]

theorem xor_bytes_getD (a b : List Nat) (i : Nat) (ha : i < a.length) (hb : i < b.length) :
    (xor_bytes a b).getD i 0 = b.getD i 0 ^^^ a.getD i 0 := by
  have hl : i < (xor_bytes a b).length := by
    rw [xor_bytes_length]
    omega
  rw [List.getD_eq_getElem _ _ hl, List.getD_eq_getElem _ _ ha, List.getD_eq_getElem _ _ hb]
  simp only [xor_bytes, List.getElem_zipWith]
  exact Nat.xor_comm _ _

/-! ## `xchacha_encrypt_bytes` in closed form -/

/-- Closed form of `xchacha_encrypt_bytes`: it returns, the context has its
counter advanced `ceil(bytes / 64)` times, and the first `bytes` bytes of `c`
are the input combined with the keystream; the rest of `c` is untouched. -/
theorem xchacha_encrypt_bytes_eq (ctx : XChaCha_ctx) (m c tmp : List Nat) (bytes : Nat)
    (hm : bytes ≤ m.length) (htmp : tmp.length = 64) (hmb : IsBytes (m.take bytes))
    (htb : IsBytes tmp) :
    xchacha_encrypt_bytes ctx m c tmp bytes
      = some (stored_ctx ctx ctx.input ((bytes + 63) / 64),
          xor_bytes (key_stream ((bytes + 63) / 64) ctx.input) (m.take bytes) ++ c.drop bytes) := by
  unfold xchacha_encrypt_bytes
  by_cases h0 : bytes = 0
  · have hn : (bytes + 63) / 64 = 0 := by omega
    rw [if_pos h0, hn, stored_ctx_zero, h0]
    simp [key_stream, xor_bytes]
  · rw [if_neg h0]
    exact encrypt_loop_eq bytes ctx ctx.input m c tmp bytes (by omega) (by omega) hm htmp hmb htb

/-- The context left by the block loop, whatever the buffers hold. -/
theorem encrypt_loop_ctx (fuel : Nat) :
    ∀ (ctx : XChaCha_ctx) (j : Words16) (m c tmp : List Nat) (bytes : Nat),
      0 < bytes → bytes ≤ 64 * fuel →
      ∃ c', encrypt_loop fuel ctx j m c tmp bytes
        = some (stored_ctx ctx j ((bytes + 63) / 64), c') := by
  induction fuel with
  | zero =>
    intro ctx j m c tmp bytes h0 hf
    omega
  | succ fuel ih =>
    intro ctx j m c tmp bytes h0 hf
    rw [encrypt_loop]
    by_cases hle : bytes ≤ 64
    · have hn : (bytes + 63) / 64 = 1 := by omega
      rw [hn]
      by_cases hlt : bytes < 64
      · simp only [hle, hlt, if_true]
        exact ⟨_, rfl⟩
      · simp only [hle, hlt, if_true, if_false]
        exact ⟨_, rfl⟩
    · have hlt : ¬ bytes < 64 := by omega
      obtain ⟨c', hc'⟩ := ih ctx (encrypt_counter j) (m.drop 64) (c.drop 64) tmp (bytes - 64)
        (by omega) (by omega)
      have hn : (bytes + 63) / 64 = (bytes - 64 + 63) / 64 + 1 := by omega
      simp only [hle, hlt, if_false]
      rw [hc', hn, stored_ctx_succ]
      exact ⟨_, rfl⟩

/-- The context left by `xchacha_encrypt_bytes`, whatever the buffers hold. -/
theorem xchacha_encrypt_bytes_ctx (ctx : XChaCha_ctx) (m c tmp : List Nat) (bytes : Nat) :
    ∃ c', xchacha_encrypt_bytes ctx m c tmp bytes
      = some (stored_ctx ctx ctx.input ((bytes + 63) / 64), c') := by
  unfold xchacha_encrypt_bytes
  by_cases h0 : bytes = 0
  · have hn : (bytes + 63) / 64 = 0 := by omega
    rw [if_pos h0, hn, stored_ctx_zero]
    exact ⟨_, rfl⟩
  · rw [if_neg h0]
    exact encrypt_loop_ctx bytes ctx ctx.input m c tmp bytes (by omega) (by omega)

/-! ## Claims -/

theorem keysetup_any_ctx (ctx1 ctx2 : XChaCha_ctx) (k iv : List Nat) :
    xchacha_keysetup ctx1 k iv = xchacha_keysetup ctx2 k iv := rfl

/-- C1 (round trip): two contexts are set up by `xchacha_keysetup` with the same
key and nonce and given the same counter by `xchacha_set_counter`. Encrypting a
message `m` on the first and decrypting the result on the second returns, and
the decrypted buffer holds exactly `m` in its first `m.length` bytes (the rest of
the buffer is untouched). This holds for every length, multiple of 64 or not,
whatever the previous contents of the contexts, of the output buffers and of the
scratch arrays. -/
theorem round_trip (ctx1 ctx2 : XChaCha_ctx) (k iv counter m c p tmp1 tmp2 : List Nat)
    (hm : IsBytes m) (ht1 : tmp1.length = 64) (hb1 : IsBytes tmp1)
    (ht2 : tmp2.length = 64) (hb2 : IsBytes tmp2) :
    ∃ e1 cph e2,
      xchacha_encrypt_bytes (xchacha_set_counter (xchacha_keysetup ctx1 k iv) counter)
        m c tmp1 m.length = some (e1, cph)
      ∧ xchacha_decrypt_bytes (xchacha_set_counter (xchacha_keysetup ctx2 k iv) counter)
        cph p tmp2 m.length = some (e2, m ++ p.drop m.length) := by
  rw [keysetup_any_ctx ctx2 ctx1]
  generalize xchacha_set_counter (xchacha_keysetup ctx1 k iv) counter = s
  have hmt : m.take m.length = m := List.take_length m
  have henc := xchacha_encrypt_bytes_eq s m c tmp1 m.length (le_refl _) ht1
    (by rw [hmt]; exact hm) hb1
  rw [hmt] at henc
  have hks := key_stream_length ((m.length + 63) / 64) s.input
  have hkb := IsBytes_key_stream ((m.length + 63) / 64) s.input
  generalize hdef : key_stream ((m.length + 63) / 64) s.input = ks at henc hks hkb
  have hxl : (xor_bytes ks m).length = m.length := by
    rw [xor_bytes_length]
    omega
  have hct : (xor_bytes ks m ++ c.drop m.length).take m.length = xor_bytes ks m := by
    rw [List.take_append_of_le_length (by omega), ← hxl, List.take_length]
  have hdec := xchacha_encrypt_bytes_eq s (xor_bytes ks m ++ c.drop m.length) p tmp2 m.length
    (by rw [List.length_append]; omega) ht2
    (by rw [hct]; exact IsBytes_xor_bytes hkb hm) hb2
  rw [hct, hdef, xor_bytes_cancel ks m (by omega)] at hdec
  exact ⟨_, _, _, henc, hdec⟩

/-- C1, at a concrete input: a 3-byte message under the key `0 .. 31`, the nonce
`64 .. 87` and the counter 1. -/
theorem round_trip_witness :
    ∃ e1 cph e2,
      xchacha_encrypt_bytes
        (xchacha_set_counter (xchacha_keysetup sample_ctx (List.range 32)
          ((List.range 24).map (fun i => i + 64))) [1, 0, 0, 0, 0, 0, 0, 0])
        [1, 2, 3] [0, 0, 0] sample_tmp [1, 2, 3].length = some (e1, cph)
      ∧ xchacha_decrypt_bytes
        (xchacha_set_counter (xchacha_keysetup sample_ctx (List.range 32)
          ((List.range 24).map (fun i => i + 64))) [1, 0, 0, 0, 0, 0, 0, 0])
        cph [9, 9, 9] sample_tmp [1, 2, 3].length
          = some (e2, [1, 2, 3] ++ [9, 9, 9].drop [1, 2, 3].length) :=
  round_trip sample_ctx sample_ctx (List.range 32) ((List.range 24).map (fun i => i + 64))
    [1, 0, 0, 0, 0, 0, 0, 0] [1, 2, 3] [0, 0, 0] [9, 9, 9] sample_tmp sample_tmp
    (by decide) (by decide) (by decide) (by decide) (by decide)

/-- C2 (the stream engine): `xchacha_encrypt_bytes` over a message `m` returns, and
byte `i` of its output, for every `i < m.length`, is `m[i] XOR K(i)`, where `K(i)` is
byte `i mod 64` of the little-endian serialization of `P(s_b) + s_b` (word-wise,
modulo `2^32`), `P` the permutation of 10 double rounds and `s_b` the entry
state with its 64-bit counter (word 12 low, word 13 high) replaced by
`(counter + i / 64) mod 2^64`. -/
theorem encrypt_bytes_correct (ctx : XChaCha_ctx) (m c tmp : List Nat)
    (hm : IsBytes m) (ht : tmp.length = 64) (hb : IsBytes tmp)
    (h12 : ctx.input.w12 < 2 ^ 32) (h13 : ctx.input.w13 < 2 ^ 32) :
    ∃ ctx' c', xchacha_encrypt_bytes ctx m c tmp m.length = some (ctx', c')
      ∧ ∀ i, i < m.length → c'.getD i 0 = m.getD i 0 ^^^ keystream_byte ctx.input i := by
  have hmt : m.take m.length = m := List.take_length m
  have henc := xchacha_encrypt_bytes_eq ctx m c tmp m.length (le_refl _) ht
    (by rw [hmt]; exact hm) hb
  rw [hmt] at henc
  refine ⟨_, _, henc, ?_⟩
  intro i hi
  have hks := key_stream_length ((m.length + 63) / 64) ctx.input
  have hik : i < 64 * ((m.length + 63) / 64) := by omega
  have hxl : i < (xor_bytes (key_stream ((m.length + 63) / 64) ctx.input) m).length := by
    rw [xor_bytes_length]
    omega
  rw [List.getD_append _ _ _ _ hxl, xor_bytes_getD _ _ _ (by omega) hi,
    key_stream_getD _ _ _ hik, key_block_eq, iterate_counter_eq _ _ h12 h13]
  rfl

/-- C2, at a concrete input: a 70-byte message on the sample context. -/
theorem encrypt_bytes_correct_witness :
    ∃ ctx' c', xchacha_encrypt_bytes sample_ctx (List.range 70) [] sample_tmp
        (List.range 70).length = some (ctx', c')
      ∧ ∀ i, i < (List.range 70).length →
        c'.getD i 0 = (List.range 70).getD i 0 ^^^ keystream_byte sample_ctx.input i :=
  encrypt_bytes_correct sample_ctx (List.range 70) [] sample_tmp
    (by decide) (by decide) (by decide) (by decide) (by decide)

theorem U8TO32_LITTLE_take (p : List Nat) (n : Nat) (h : 4 ≤ n) :
    U8TO32_LITTLE (p.take n) = U8TO32_LITTLE p := by
  have g : ∀ k, k < 4 → (p.take n).getD k 0 = p.getD k 0 := by
    intro k hk
    simp only [List.getD_eq_getElem?_getD]
    rw [List.getElem?_take_of_lt (by omega)]
  simp only [U8TO32_LITTLE, g 0 (by omega), g 1 (by omega), g 2 (by omega), g 3 (by omega)]

theorem U8TO32_LITTLE_drop_take (p : List Nat) (a n : Nat) (h : a + 4 ≤ n) :
    U8TO32_LITTLE ((p.take n).drop a) = U8TO32_LITTLE (p.drop a) := by
  have e : (p.take n).drop a = (p.drop a).take (n - a) := by
    rw [List.drop_take]
  rw [e, U8TO32_LITTLE_take _ _ (by omega)]

/-- C3 (HChaCha20): for a key `k` and an input `n`, `xchacha_hchacha20` stores
the little-endian serialization of words 0, 1, 2, 3, 12, 13, 14, 15, in that
order, of `P(s)`, where `s` holds the four constants in words 0-3, `k` decoded as
8 little-endian words in words 4-11 and `n` decoded as 4 little-endian words in
words 12-15, and `P` is 10 double rounds. The initial state is not added back. -/
theorem hchacha20_correct (k n : List Nat) (hk : IsBytes k) (hn : IsBytes n) :
    xchacha_hchacha20 n k
      = serialize [(permutation (hchacha20_state k n)).w0, (permutation (hchacha20_state k n)).w1,
          (permutation (hchacha20_state k n)).w2, (permutation (hchacha20_state k n)).w3,
          (permutation (hchacha20_state k n)).w12, (permutation (hchacha20_state k n)).w13,
          (permutation (hchacha20_state k n)).w14, (permutation (hchacha20_state k n)).w15] := by
  have k0 : U8TO32_LITTLE (k.drop 0) = le_word k 0 := U8TO32_LITTLE_drop k hk 0
  have k1 : U8TO32_LITTLE (k.drop 4) = le_word k 1 := U8TO32_LITTLE_drop k hk 1
  have k2 : U8TO32_LITTLE (k.drop 8) = le_word k 2 := U8TO32_LITTLE_drop k hk 2
  have k3 : U8TO32_LITTLE (k.drop 12) = le_word k 3 := U8TO32_LITTLE_drop k hk 3
  have k4 : U8TO32_LITTLE (k.drop 16) = le_word k 4 := U8TO32_LITTLE_drop k hk 4
  have k5 : U8TO32_LITTLE (k.drop 20) = le_word k 5 := U8TO32_LITTLE_drop k hk 5
  have k6 : U8TO32_LITTLE (k.drop 24) = le_word k 6 := U8TO32_LITTLE_drop k hk 6
  have k7 : U8TO32_LITTLE (k.drop 28) = le_word k 7 := U8TO32_LITTLE_drop k hk 7
  have n0 : U8TO32_LITTLE (n.drop 0) = le_word n 0 := U8TO32_LITTLE_drop n hn 0
  have n1 : U8TO32_LITTLE (n.drop 4) = le_word n 1 := U8TO32_LITTLE_drop n hn 1
  have n2 : U8TO32_LITTLE (n.drop 8) = le_word n 2 := U8TO32_LITTLE_drop n hn 2
  have n3 : U8TO32_LITTLE (n.drop 12) = le_word n 3 := U8TO32_LITTLE_drop n hn 3
  unfold xchacha_hchacha20
  simp only [k0, k1, k2, k3, k4, k5, k6, k7, n0, n1, n2, n3, hchacha20_rounds_ten,
    U32TO8_LITTLE_eq, serialize, hchacha20_state, List.append_assoc, List.append_nil]

/-- C3, at a concrete input: the key `0 .. 31` and the input `0 .. 15`. -/
theorem hchacha20_correct_witness :
    xchacha_hchacha20 (List.range 16) (List.range 32)
      = serialize [(permutation (hchacha20_state (List.range 32) (List.range 16))).w0,
          (permutation (hchacha20_state (List.range 32) (List.range 16))).w1,
          (permutation (hchacha20_state (List.range 32) (List.range 16))).w2,
          (permutation (hchacha20_state (List.range 32) (List.range 16))).w3,
          (permutation (hchacha20_state (List.range 32) (List.range 16))).w12,
          (permutation (hchacha20_state (List.range 32) (List.range 16))).w13,
          (permutation (hchacha20_state (List.range 32) (List.range 16))).w14,
          (permutation (hchacha20_state (List.range 32) (List.range 16))).w15] :=
  hchacha20_correct (List.range 32) (List.range 16) (by decide) (by decide)

/-- C4 (known vector): on the key `00 01 .. 1f` and the 16-byte input
`00 00 00 09 00 00 00 4a 00 00 00 00 31 41 59 27`, `xchacha_hchacha20` stores the
32 bytes `82 41 3b 42 .. 26 d3 ec dc` of draft-irtf-cfrg-xchacha, section 2.2.1. -/
theorem hchacha20_known_vector :
    xchacha_hchacha20
        [0x00, 0x00, 0x00, 0x09, 0x00, 0x00, 0x00, 0x4a, 0x00, 0x00, 0x00, 0x00, 0x31, 0x41,
          0x59, 0x27]
        [0x00, 0x01, 0x02, 0x03, 0x04, 0x05, 0x06, 0x07, 0x08, 0x09, 0x0a, 0x0b, 0x0c, 0x0d,
          0x0e, 0x0f, 0x10, 0x11, 0x12, 0x13, 0x14, 0x15, 0x16, 0x17, 0x18, 0x19, 0x1a, 0x1b,
          0x1c, 0x1d, 0x1e, 0x1f]
      = [0x82, 0x41, 0x3b, 0x42, 0x27, 0xb2, 0x7b, 0xfe, 0xd3, 0x0e, 0x42, 0x50, 0x8a, 0x87,
          0x7d, 0x73, 0xa0, 0xf9, 0xe4, 0xd5, 0x8a, 0x74, 0xa8, 0x53, 0xc1, 0x2e, 0xc4, 0x13,
          0x26, 0xd3, 0xec, 0xdc] := by
  decide

theorem hchacha20_take (k iv : List Nat) :
    xchacha_hchacha20 (iv.take 16) k = xchacha_hchacha20 iv k := by
  have e0 := U8TO32_LITTLE_drop_take iv 0 16 (by omega)
  have e1 := U8TO32_LITTLE_drop_take iv 4 16 (by omega)
  have e2 := U8TO32_LITTLE_drop_take iv 8 16 (by omega)
  have e3 := U8TO32_LITTLE_drop_take iv 12 16 (by omega)
  unfold xchacha_hchacha20
  simp only [e0, e1, e2, e3]

theorem le_word_drop_take (p : List Nat) (a : Nat) :
    le_word ((p.drop (4 * a)).take 4) 0 = le_word p a := by
  have g : ∀ k, k < 4 → ((p.drop (4 * a)).take 4).getD k 0 = p.getD (4 * a + k) 0 := by
    intro k hk
    simp only [List.getD_eq_getElem?_getD]
    rw [List.getElem?_take_of_lt hk, List.getElem?_drop]
  simp only [le_word, Nat.mul_zero, Nat.zero_add]
  rw [g 0 (by omega), g 1 (by omega), g 2 (by omega), g 3 (by omega)]
  rfl

/-- C5 (context setup): `xchacha_keysetup` leaves a context whose words 0-3 are
the four constants, whose words 4-11 are the little-endian decoding of
`xchacha_hchacha20(key, nonce[0:16])`, whose words 12 and 13 are 0 and whose
words 14 and 15 are the little-endian decoding of `nonce[16:20]` and
`nonce[20:24]`; the result does not depend on the previous contents of the
context. -/
theorem keysetup_correct (ctx : XChaCha_ctx) (k iv : List Nat) (hiv : IsBytes iv) :
    (xchacha_keysetup ctx k iv).input
        = { w0 := 0x61707865, w1 := 0x3320646e, w2 := 0x79622d32, w3 := 0x6b206574,
            w4 := le_word (xchacha_hchacha20 (iv.take 16) k) 0,
            w5 := le_word (xchacha_hchacha20 (iv.take 16) k) 1,
            w6 := le_word (xchacha_hchacha20 (iv.take 16) k) 2,
            w7 := le_word (xchacha_hchacha20 (iv.take 16) k) 3,
            w8 := le_word (xchacha_hchacha20 (iv.take 16) k) 4,
            w9 := le_word (xchacha_hchacha20 (iv.take 16) k) 5,
            w10 := le_word (xchacha_hchacha20 (iv.take 16) k) 6,
            w11 := le_word (xchacha_hchacha20 (iv.take 16) k) 7,
            w12 := 0, w13 := 0,
            w14 := le_word ((iv.drop 16).take 4) 0,
            w15 := le_word ((iv.drop 20).take 4) 0 }
      ∧ ∀ ctx' : XChaCha_ctx, xchacha_keysetup ctx' k iv = xchacha_keysetup ctx k iv := by
  refine ⟨?_, fun ctx' => rfl⟩
  have hk2 : IsBytes (xchacha_hchacha20 iv k) := by
    unfold xchacha_hchacha20
    simp only
    repeat
      first
        | exact IsBytes_U32TO8 _
        | apply IsBytes_append
  have k0 := U8TO32_LITTLE_drop _ hk2 0
  have k1 := U8TO32_LITTLE_drop _ hk2 1
  have k2 := U8TO32_LITTLE_drop _ hk2 2
  have k3 := U8TO32_LITTLE_drop _ hk2 3
  have k4 := U8TO32_LITTLE_drop _ hk2 4
  have k5 := U8TO32_LITTLE_drop _ hk2 5
  have k6 := U8TO32_LITTLE_drop _ hk2 6
  have k7 := U8TO32_LITTLE_drop _ hk2 7
  have n4 := U8TO32_LITTLE_drop iv hiv 4
  have n5 := U8TO32_LITTLE_drop iv hiv 5
  have d4 := le_word_drop_take iv 4
  have d5 := le_word_drop_take iv 5
  generalize hgen : xchacha_hchacha20 iv k = k2b at k0 k1 k2 k3 k4 k5 k6 k7
  norm_num at k0 k1 k2 k3 k4 k5 k6 k7 n4 n5 d4 d5
  unfold xchacha_keysetup
  simp only [hchacha20_take, hgen, k0, k1, k2, k3, k4, k5, k6, k7, n4, n5, d4, d5,
    List.drop_zero]

/-- C5, at a concrete input: the key `0 .. 31` and the nonce `0 .. 23`. -/
theorem keysetup_correct_witness :
    (xchacha_keysetup sample_ctx (List.range 32) (List.range 24)).input
        = { w0 := 0x61707865, w1 := 0x3320646e, w2 := 0x79622d32, w3 := 0x6b206574,
            w4 := le_word (xchacha_hchacha20 ((List.range 24).take 16) (List.range 32)) 0,
            w5 := le_word (xchacha_hchacha20 ((List.range 24).take 16) (List.range 32)) 1,
            w6 := le_word (xchacha_hchacha20 ((List.range 24).take 16) (List.range 32)) 2,
            w7 := le_word (xchacha_hchacha20 ((List.range 24).take 16) (List.range 32)) 3,
            w8 := le_word (xchacha_hchacha20 ((List.range 24).take 16) (List.range 32)) 4,
            w9 := le_word (xchacha_hchacha20 ((List.range 24).take 16) (List.range 32)) 5,
            w10 := le_word (xchacha_hchacha20 ((List.range 24).take 16) (List.range 32)) 6,
            w11 := le_word (xchacha_hchacha20 ((List.range 24).take 16) (List.range 32)) 7,
            w12 := 0, w13 := 0,
            w14 := le_word (((List.range 24).drop 16).take 4) 0,
            w15 := le_word (((List.range 24).drop 20).take 4) 0 }
      ∧ ∀ ctx' : XChaCha_ctx, xchacha_keysetup ctx' (List.range 32) (List.range 24)
          = xchacha_keysetup sample_ctx (List.range 32) (List.range 24) :=
  keysetup_correct sample_ctx (List.range 32) (List.range 24) (by decide)

theorem take_split_at (m : List Nat) (k L : Nat) (h : k ≤ L) :
    m.take L = m.take k ++ (m.drop k).take (L - k) := by
  have h1 := List.take_add m k (L - k)
  have h2 : k + (L - k) = L := by omega
  rw [h2] at h1
  exact h1

theorem take_append_length (a b : List Nat) (n : Nat) (h : a.length = n) :
    (a ++ b).take n = a := by
  subst h
  simp

theorem drop_append_length (a b : List Nat) (n : Nat) (h : a.length = n) :
    (a ++ b).drop n = b := by
  subst h
  simp

/-- Splitting at a block boundary: two calls, the first over `64 * b` bytes, give
the result of the single call. -/
theorem encrypt_split_eq (ctx : XChaCha_ctx) (m c tmp1 tmp2 tmp : List Nat) (b L : Nat)
    (hk : 64 * b ≤ L) (hL : L ≤ m.length) (hm : IsBytes (m.take L))
    (ht1 : tmp1.length = 64) (hb1 : IsBytes tmp1) (ht2 : tmp2.length = 64)
    (hb2 : IsBytes tmp2) (ht : tmp.length = 64) (hb : IsBytes tmp) :
    encrypt_split ctx m c tmp1 tmp2 (64 * b) L = xchacha_encrypt_bytes ctx m c tmp L := by
  have hsplit := take_split_at m (64 * b) L hk
  have hm1 : IsBytes (m.take (64 * b)) := by
    intro x hx
    apply hm x
    rw [hsplit]
    exact List.mem_append_left _ hx
  have hm2 : IsBytes ((m.drop (64 * b)).take (L - 64 * b)) := by
    intro x hx
    apply hm x
    rw [hsplit]
    exact List.mem_append_right _ hx
  have h1 := xchacha_encrypt_bytes_eq ctx m c tmp1 (64 * b) (by omega) ht1 hm1 hb1
  have hn1 : (64 * b + 63) / 64 = b := by omega
  rw [hn1] at h1
  have hks1 := key_stream_length b ctx.input
  have hw := xchacha_encrypt_bytes_eq ctx m c tmp L hL ht hm hb
  have hn : (L + 63) / 64 = b + (L - 64 * b + 63) / 64 := by omega
  rw [hn, key_stream_add, ← stored_ctx_add, hsplit, ← stored_ctx_input] at hw
  generalize key_stream b ctx.input = ks1 at h1 hks1 hw
  have hxl : (xor_bytes ks1 (m.take (64 * b))).length = 64 * b := by
    rw [xor_bytes_length, List.length_take]
    omega
  have hc1t : (xor_bytes ks1 (m.take (64 * b)) ++ c.drop (64 * b)).take (64 * b)
      = xor_bytes ks1 (m.take (64 * b)) := take_append_length _ _ _ hxl
  have hc1d : (xor_bytes ks1 (m.take (64 * b)) ++ c.drop (64 * b)).drop (64 * b)
      = c.drop (64 * b) := drop_append_length _ _ _ hxl
  have h2 := xchacha_encrypt_bytes_eq (stored_ctx ctx ctx.input b) (m.drop (64 * b))
    (c.drop (64 * b)) tmp2 (L - 64 * b) (by rw [List.length_drop]; omega) ht2 hm2 hb2
  have e2 : (c.drop (64 * b)).drop (L - 64 * b) = c.drop L := by
    have h3 : 64 * b + (L - 64 * b) = L := by omega
    rw [List.drop_drop, h3]
  rw [e2] at h2
  rw [xor_bytes_append _ _ _ _ (by rw [hks1, List.length_take]; omega), List.append_assoc] at hw
  unfold encrypt_split
  rw [h1]
  simp only [hc1t, hc1d]
  rw [h2, hw]

/-- C6 as stated fails: on the sample context, a 2-byte message encrypted in
one call gives the bytes `228, 66`, while the same message split after its first
byte gives `228, 45`. -/
theorem streaming_any_boundary_counterexample :
    (xchacha_encrypt_bytes sample_ctx [0, 0] [0, 0] sample_tmp 2).map Prod.snd
        = some [228, 66]
      ∧ (encrypt_split sample_ctx [0, 0] [0, 0] sample_tmp sample_tmp 1 2).map Prod.snd
        = some [228, 45]
      ∧ (encrypt_split sample_ctx [0, 0] [0, 0] sample_tmp sample_tmp 1 2).map Prod.snd
        ≠ (xchacha_encrypt_bytes sample_ctx [0, 0] [0, 0] sample_tmp 2).map Prod.snd := by
  decide

/-- C6, amended (streaming equivalence at a block boundary): for a split point
`k ≤ m.length` that is a multiple of 64, or equal to `m.length`, encrypting
`m[0:k]` and then `m[k:]` with the context left by the first call returns, and
gives the same output buffer as encrypting `m` in one call. -/
theorem streaming_block_boundary (ctx : XChaCha_ctx) (m c tmp1 tmp2 tmp : List Nat) (k : Nat)
    (hk : k ≤ m.length) (hsplit : k % 64 = 0 ∨ k = m.length) (hm : IsBytes m)
    (ht1 : tmp1.length = 64) (hb1 : IsBytes tmp1) (ht2 : tmp2.length = 64)
    (hb2 : IsBytes tmp2) (ht : tmp.length = 64) (hb : IsBytes tmp) :
    ∃ ctx2 out ctxw,
      encrypt_split ctx m c tmp1 tmp2 k m.length = some (ctx2, out)
      ∧ xchacha_encrypt_bytes ctx m c tmp m.length = some (ctxw, out) := by
  have hmt : IsBytes (m.take m.length) := IsBytes_take _ hm
  have hw := xchacha_encrypt_bytes_eq ctx m c tmp m.length (le_refl _) ht hmt hb
  rcases hsplit with h64 | hend
  · have hkb : k = 64 * (k / 64) := by omega
    have hs := encrypt_split_eq ctx m c tmp1 tmp2 tmp (k / 64) m.length (by omega) (le_refl _)
      hmt ht1 hb1 ht2 hb2 ht hb
    rw [← hkb] at hs
    rw [hs]
    exact ⟨_, _, _, hw, hw⟩
  · have h1 := xchacha_encrypt_bytes_eq ctx m c tmp1 m.length (le_refl _) ht1 hmt hb1
    have hz : m.length - m.length = 0 := by omega
    refine ⟨stored_ctx ctx ctx.input ((m.length + 63) / 64), _, _, ?_, hw⟩
    unfold encrypt_split
    rw [hend, h1]
    simp only [hz, xchacha_encrypt_bytes, if_true, List.take_append_drop]

/-- C6 amended, at concrete inputs: a 70-byte message split after 64 bytes. -/
theorem streaming_block_boundary_witness :
    ∃ ctx2 out ctxw,
      encrypt_split sample_ctx (List.range 70) (List.replicate 70 0) sample_tmp sample_tmp 64
          (List.range 70).length = some (ctx2, out)
      ∧ xchacha_encrypt_bytes sample_ctx (List.range 70) (List.replicate 70 0) sample_tmp
          (List.range 70).length = some (ctxw, out) :=
  streaming_block_boundary sample_ctx (List.range 70) (List.replicate 70 0) sample_tmp sample_tmp
    sample_tmp 64 (by decide) (by decide) (by decide) (by decide) (by decide) (by decide)
    (by decide) (by decide) (by decide)

/-- C7 (incremental block-wise encryption): for a message `m` shorter than `2^32`
bytes and a block count `b` with `64 * b ≤ m.length`, `xchacha_encrypt_blocks` over
the first `b` blocks followed by `xchacha_encrypt_bytes` over the rest, on the
context left by the first call, both return, and give the same output buffer and
the same final context as one `xchacha_encrypt_bytes` call over the whole of `m`. -/
theorem blocks_then_bytes (ctx : XChaCha_ctx) (m c tmp1 tmp2 tmp : List Nat) (b : Nat)
    (hk : 64 * b ≤ m.length) (hL : m.length < 2 ^ 32) (hm : IsBytes m)
    (ht1 : tmp1.length = 64) (hb1 : IsBytes tmp1) (ht2 : tmp2.length = 64)
    (hb2 : IsBytes tmp2) (ht : tmp.length = 64) (hb : IsBytes tmp) :
    ∃ ctx1 c1 ctx2 c2,
      xchacha_encrypt_blocks ctx m c tmp1 b = some (ctx1, c1)
      ∧ xchacha_encrypt_bytes ctx1 (m.drop (64 * b)) (c1.drop (64 * b)) tmp2
          (m.length - 64 * b) = some (ctx2, c2)
      ∧ xchacha_encrypt_bytes ctx m c tmp m.length = some (ctx2, c1.take (64 * b) ++ c2) := by
  have hmt : IsBytes (m.take m.length) := IsBytes_take _ hm
  have hs := encrypt_split_eq ctx m c tmp1 tmp2 tmp b m.length hk (le_refl _)
    hmt ht1 hb1 ht2 hb2 ht hb
  have hbl : (b * XCHACHA_BLOCKLENGTH) % 2 ^ 32 = 64 * b := by
    unfold XCHACHA_BLOCKLENGTH
    omega
  have h1 := xchacha_encrypt_bytes_eq ctx m c tmp1 (64 * b) hk ht1 (IsBytes_take _ hm) hb1
  have h2 := xchacha_encrypt_bytes_ctx (stored_ctx ctx ctx.input ((64 * b + 63) / 64))
    (m.drop (64 * b))
    ((xor_bytes (key_stream ((64 * b + 63) / 64) ctx.input) (m.take (64 * b))
      ++ c.drop (64 * b)).drop (64 * b)) tmp2 (m.length - 64 * b)
  obtain ⟨c2, h2⟩ := h2
  unfold encrypt_split at hs
  rw [h1] at hs
  simp only [h2] at hs
  unfold xchacha_encrypt_blocks
  rw [hbl]
  exact ⟨_, _, _, _, h1, h2, hs.symm⟩

/-- C7, at concrete inputs: a 130-byte message, the first block by
`xchacha_encrypt_blocks`. -/
theorem blocks_then_bytes_witness :
    ∃ ctx1 c1 ctx2 c2,
      xchacha_encrypt_blocks sample_ctx (List.range 130) (List.replicate 130 0) sample_tmp 1
        = some (ctx1, c1)
      ∧ xchacha_encrypt_bytes ctx1 ((List.range 130).drop (64 * 1)) (c1.drop (64 * 1)) sample_tmp
          ((List.range 130).length - 64 * 1) = some (ctx2, c2)
      ∧ xchacha_encrypt_bytes sample_ctx (List.range 130) (List.replicate 130 0) sample_tmp
          (List.range 130).length = some (ctx2, c1.take (64 * 1) ++ c2) :=
  blocks_then_bytes sample_ctx (List.range 130) (List.replicate 130 0) sample_tmp sample_tmp
    sample_tmp 1 (by decide) (by decide) (by decide) (by decide) (by decide) (by decide)
    (by decide) (by decide) (by decide)

theorem U8TO32_LITTLE_le_bytes (h : Nat) (hh : h < 2 ^ 32) (rest : List Nat) :
    U8TO32_LITTLE (le_bytes h ++ rest) = h := by
  have e : le_bytes h ++ rest
      = h % 256 :: (h / 2 ^ 8 % 256) :: (h / 2 ^ 16 % 256) :: (h / 2 ^ 24 % 256) :: rest := rfl
  rw [e, U8TO32_LITTLE_bytes _ _ _ _ _ (Nat.mod_lt _ (by norm_num)) (Nat.mod_lt _ (by norm_num))
    (Nat.mod_lt _ (by norm_num))]
  omega

theorem set_counter_ff_input (ctx : XChaCha_ctx) (h : Nat) (hh : h < 2 ^ 32) :
    (xchacha_set_counter ctx ([0xFF, 0xFF, 0xFF, 0xFF] ++ le_bytes h)).input.w12 = 0xFFFFFFFF
      ∧ (xchacha_set_counter ctx ([0xFF, 0xFF, 0xFF, 0xFF] ++ le_bytes h)).input.w13 = h := by
  constructor
  · show U8TO32_LITTLE (0xFF :: 0xFF :: 0xFF :: 0xFF :: le_bytes h) = 0xFFFFFFFF
    rw [U8TO32_LITTLE_bytes _ _ _ _ _ (by norm_num) (by norm_num) (by norm_num)]
    norm_num
  · show U8TO32_LITTLE (le_bytes h ++ []) = h
    exact U8TO32_LITTLE_le_bytes h hh []

/-- Two iterations of the block loop from the low counter word `0xFFFFFFFF`. -/
theorem stored_ctx_carry (s : XChaCha_ctx) (h : Nat) (hh : h < 2 ^ 32)
    (h12 : s.input.w12 = 0xFFFFFFFF) (h13 : s.input.w13 = h) :
    (stored_ctx s s.input 2).input.w12 = 1
      ∧ (stored_ctx s s.input 2).input.w13 = (h + 1) % 2 ^ 32 := by
  rw [stored_ctx_input, iterate_counter_eq 2 s.input (by omega) (by omega)]
  simp only [with_counter, counter]
  constructor <;> omega

/-- C8 as stated fails: on the sample context with the counter set to low word
`0xFFFFFFFF`, high word 0, encrypting two blocks leaves word 12 equal to 1, not
0 (word 13 is 1). -/
theorem counter_carry_counterexample :
    (xchacha_encrypt_bytes (xchacha_set_counter sample_ctx [0xFF, 0xFF, 0xFF, 0xFF, 0, 0, 0, 0])
        (List.replicate 128 0) (List.replicate 128 0) sample_tmp 128).map
          (fun r => (r.1.input.w12, r.1.input.w13)) = some (1, 1)
      ∧ (xchacha_encrypt_bytes
          (xchacha_set_counter sample_ctx [0xFF, 0xFF, 0xFF, 0xFF, 0, 0, 0, 0])
          (List.replicate 128 0) (List.replicate 128 0) sample_tmp 128).map
            (fun r => (r.1.input.w12, r.1.input.w13)) ≠ some (0, 1) := by
  decide

/-- C8, amended (counter carry): after `xchacha_set_counter` with the low counter
word `0xFFFFFFFF` and the high counter word `h`, a transform of two blocks (128
bytes) by `xchacha_encrypt_bytes` or `xchacha_keystream_bytes` returns and leaves
word 12 equal to 1 (the low word rolled over to 0 after the first block and the
second block advanced it again) and word 13 equal to `h + 1` modulo `2^32`. -/
theorem counter_carry (ctx : XChaCha_ctx) (h : Nat) (m c stream tmp : List Nat)
    (hh : h < 2 ^ 32) :
    (∃ ctx' c', xchacha_encrypt_bytes
          (xchacha_set_counter ctx ([0xFF, 0xFF, 0xFF, 0xFF] ++ le_bytes h)) m c tmp 128
          = some (ctx', c')
        ∧ ctx'.input.w12 = 1 ∧ ctx'.input.w13 = (h + 1) % 2 ^ 32)
      ∧ (∃ ctx' s', xchacha_keystream_bytes
          (xchacha_set_counter ctx ([0xFF, 0xFF, 0xFF, 0xFF] ++ le_bytes h)) stream tmp 128
          = some (ctx', s')
        ∧ ctx'.input.w12 = 1 ∧ ctx'.input.w13 = (h + 1) % 2 ^ 32) := by
  obtain ⟨h12, h13⟩ := set_counter_ff_input ctx h hh
  generalize xchacha_set_counter ctx ([0xFF, 0xFF, 0xFF, 0xFF] ++ le_bytes h) = s at h12 h13
  obtain ⟨hw12, hw13⟩ := stored_ctx_carry s h hh h12 h13
  have hn : (128 + 63) / 64 = 2 := by norm_num
  constructor
  · obtain ⟨c', hc'⟩ := xchacha_encrypt_bytes_ctx s m c tmp 128
    rw [hn] at hc'
    exact ⟨_, _, hc', hw12, hw13⟩
  · unfold xchacha_keystream_bytes
    obtain ⟨c', hc'⟩ := xchacha_encrypt_bytes_ctx s
      (List.replicate 128 0 ++ stream.drop 128) (List.replicate 128 0 ++ stream.drop 128) tmp 128
    rw [hn] at hc'
    exact ⟨_, _, hc', hw12, hw13⟩

/-- C8 amended, at a concrete input: high counter word `0xFFFFFFFF`, which wraps
to 0. -/
theorem counter_carry_witness :
    (∃ ctx' c', xchacha_encrypt_bytes
          (xchacha_set_counter sample_ctx ([0xFF, 0xFF, 0xFF, 0xFF] ++ le_bytes 0xFFFFFFFF))
          (List.replicate 128 7) (List.replicate 128 0) sample_tmp 128 = some (ctx', c')
        ∧ ctx'.input.w12 = 1 ∧ ctx'.input.w13 = (0xFFFFFFFF + 1) % 2 ^ 32)
      ∧ (∃ ctx' s', xchacha_keystream_bytes
          (xchacha_set_counter sample_ctx ([0xFF, 0xFF, 0xFF, 0xFF] ++ le_bytes 0xFFFFFFFF))
          (List.replicate 128 7) sample_tmp 128 = some (ctx', s')
        ∧ ctx'.input.w12 = 1 ∧ ctx'.input.w13 = (0xFFFFFFFF + 1) % 2 ^ 32) :=
  counter_carry sample_ctx 0xFFFFFFFF (List.replicate 128 7) (List.replicate 128 0)
    (List.replicate 128 7) sample_tmp (by decide)

/-- C9 (context after a transform): `xchacha_encrypt_bytes` over `n` bytes returns,
and the context it leaves is the entry context except for words 12 and 13: the
64-bit counter `word12 + 2^32 * word13` has become the old counter plus
`ceil(n / 64)`, modulo `2^64`. Words 0-3, 4-11 and 14-15 are unchanged. -/
theorem encrypt_bytes_ctx_post (ctx : XChaCha_ctx) (m c tmp : List Nat) (n : Nat)
    (h12 : ctx.input.w12 < 2 ^ 32) (h13 : ctx.input.w13 < 2 ^ 32) :
    ∃ ctx' c', xchacha_encrypt_bytes ctx m c tmp n = some (ctx', c')
      ∧ counter ctx'.input = (counter ctx.input + (n + 63) / 64) % 2 ^ 64
      ∧ ctx'.input.w12 < 2 ^ 32 ∧ ctx'.input.w13 < 2 ^ 32
      ∧ ctx'.input = { ctx.input with w12 := ctx'.input.w12, w13 := ctx'.input.w13 } := by
  obtain ⟨c', hc'⟩ := xchacha_encrypt_bytes_ctx ctx m c tmp n
  refine ⟨_, _, hc', ?_, ?_, ?_, ?_⟩
  · rw [stored_ctx_input, iterate_counter_eq _ _ h12 h13,
      counter_with_counter _ _ (Nat.mod_lt _ (by norm_num))]
  · rw [stored_ctx_input, iterate_counter_eq _ _ h12 h13]
    exact with_counter_w12_lt _ _
  · rw [stored_ctx_input, iterate_counter_eq _ _ h12 h13]
    exact with_counter_w13_lt _ _
  · rfl

/-- C9, at a concrete input: 100 bytes from the counter `2^32 - 1`. -/
theorem encrypt_bytes_ctx_post_witness :
    ∃ ctx' c', xchacha_encrypt_bytes
          (xchacha_set_counter sample_ctx [0xFF, 0xFF, 0xFF, 0xFF, 0, 0, 0, 0])
          (List.range 100) (List.replicate 100 0) sample_tmp 100 = some (ctx', c')
      ∧ counter ctx'.input
          = (counter (xchacha_set_counter sample_ctx [0xFF, 0xFF, 0xFF, 0xFF, 0, 0, 0, 0]).input
              + (100 + 63) / 64) % 2 ^ 64
      ∧ ctx'.input.w12 < 2 ^ 32 ∧ ctx'.input.w13 < 2 ^ 32
      ∧ ctx'.input
          = { (xchacha_set_counter sample_ctx [0xFF, 0xFF, 0xFF, 0xFF, 0, 0, 0, 0]).input with
              w12 := ctx'.input.w12, w13 := ctx'.input.w13 } :=
  encrypt_bytes_ctx_post (xchacha_set_counter sample_ctx [0xFF, 0xFF, 0xFF, 0xFF, 0, 0, 0, 0])
    (List.range 100) (List.replicate 100 0) sample_tmp 100 (by decide) (by decide)

/-- C10 (zero-length request): with length 0, `xchacha_encrypt_bytes`,
`xchacha_decrypt_bytes` and `xchacha_keystream_bytes` return, leave the output
buffer as it was (no byte is written) and leave the context, all 16 words of it,
as it was. -/
theorem zero_length_noop (ctx : XChaCha_ctx) (m c stream tmp : List Nat) :
    xchacha_encrypt_bytes ctx m c tmp 0 = some (ctx, c)
      ∧ xchacha_decrypt_bytes ctx c m tmp 0 = some (ctx, m)
      ∧ xchacha_keystream_bytes ctx stream tmp 0 = some (ctx, stream) := by
  refine ⟨rfl, rfl, ?_⟩
  unfold xchacha_keystream_bytes
  simp only [List.replicate_zero, List.drop_zero, List.nil_append]
  rfl

/-- C11 (bounded partial final block): `xchacha_encrypt_bytes` over `n` bytes, on an
output buffer of at least `n` bytes, returns and produces exactly `n` output
bytes. The buffer keeps its length and its bytes at index `n` and beyond; two
inputs that agree on bytes `0 .. n-1` give the same result, so only those bytes
are read; and the result is the same whatever the scratch array held at
entry. -/
theorem partial_block_bounded (ctx : XChaCha_ctx) (m1 m2 c tmp1 tmp2 : List Nat) (n : Nat)
    (h1 : n ≤ m1.length) (h2 : n ≤ m2.length) (hm : m1.take n = m2.take n)
    (hb : IsBytes (m1.take n)) (hc : n ≤ c.length)
    (ht1 : tmp1.length = 64) (hb1 : IsBytes tmp1) (ht2 : tmp2.length = 64)
    (hb2 : IsBytes tmp2) :
    ∃ ctx' out,
      xchacha_encrypt_bytes ctx m1 c tmp1 n = some (ctx', out ++ c.drop n)
      ∧ xchacha_encrypt_bytes ctx m2 c tmp2 n = some (ctx', out ++ c.drop n)
      ∧ out.length = n ∧ (out ++ c.drop n).length = c.length := by
  have e1 := xchacha_encrypt_bytes_eq ctx m1 c tmp1 n h1 ht1 hb hb1
  have e2 := xchacha_encrypt_bytes_eq ctx m2 c tmp2 n h2 ht2 (by rw [← hm]; exact hb) hb2
  rw [← hm] at e2
  have hks := key_stream_length ((n + 63) / 64) ctx.input
  generalize key_stream ((n + 63) / 64) ctx.input = ks at e1 e2 hks
  have hl : (xor_bytes ks (m1.take n)).length = n := by
    rw [xor_bytes_length, List.length_take]
    omega
  refine ⟨_, _, e1, e2, hl, ?_⟩
  rw [List.length_append, hl, List.length_drop]
  omega

/-- C11, at a concrete input: 3 bytes into a 5-byte buffer, from two inputs that
differ after byte 2 and two different scratch contents. -/
theorem partial_block_bounded_witness :
    ∃ ctx' out,
      xchacha_encrypt_bytes sample_ctx [1, 2, 3, 4] [9, 9, 9, 9, 9] sample_tmp 3
        = some (ctx', out ++ [9, 9, 9, 9, 9].drop 3)
      ∧ xchacha_encrypt_bytes sample_ctx [1, 2, 3, 77, 78] [9, 9, 9, 9, 9]
          (List.replicate 64 0) 3 = some (ctx', out ++ [9, 9, 9, 9, 9].drop 3)
      ∧ out.length = 3 ∧ (out ++ [9, 9, 9, 9, 9].drop 3).length = [9, 9, 9, 9, 9].length :=
  partial_block_bounded sample_ctx [1, 2, 3, 4] [1, 2, 3, 77, 78] [9, 9, 9, 9, 9] sample_tmp
    (List.replicate 64 0) 3 (by decide) (by decide) (by decide) (by decide) (by decide)
    (by decide) (by decide) (by decide) (by decide)

theorem IsBytes_replicate_zero (n : Nat) : IsBytes (List.replicate n 0) := by
  intro x hx
  rw [List.eq_of_mem_replicate hx]
  norm_num

/-- C12 (keystream generator): `xchacha_keystream_bytes(s, n)` returns, and gives the
same `n` bytes and the same final context as `xchacha_encrypt_bytes` from `s` on
an input of `n` zero bytes, whatever the buffer `stream` held before. -/
theorem keystream_bytes_eq_encrypt_zeros (ctx : XChaCha_ctx) (stream c tmp1 tmp2 : List Nat)
    (n : Nat) (ht1 : tmp1.length = 64) (hb1 : IsBytes tmp1) (ht2 : tmp2.length = 64)
    (hb2 : IsBytes tmp2) :
    ∃ ctx' ks,
      xchacha_keystream_bytes ctx stream tmp1 n = some (ctx', ks ++ stream.drop n)
      ∧ xchacha_encrypt_bytes ctx (List.replicate n 0) c tmp2 n = some (ctx', ks ++ c.drop n)
      ∧ ks.length = n := by
  have hz : (List.replicate n 0 : List Nat).take n = List.replicate n 0 := by
    rw [List.take_replicate, Nat.min_self]
  have hzs : (List.replicate n 0 ++ stream.drop n).take n = List.replicate n 0 :=
    take_append_length _ _ _ (List.length_replicate _ _)
  have hds : (List.replicate n 0 ++ stream.drop n).drop n = stream.drop n :=
    drop_append_length _ _ _ (List.length_replicate _ _)
  have e1 := xchacha_encrypt_bytes_eq ctx (List.replicate n 0 ++ stream.drop n)
    (List.replicate n 0 ++ stream.drop n) tmp1 n
    (by rw [List.length_append, List.length_replicate]; omega) ht1
    (by rw [hzs]; exact IsBytes_replicate_zero n) hb1
  have e2 := xchacha_encrypt_bytes_eq ctx (List.replicate n 0) c tmp2 n
    (by rw [List.length_replicate]) ht2 (by rw [hz]; exact IsBytes_replicate_zero n) hb2
  rw [hzs, hds] at e1
  rw [hz] at e2
  have hks := key_stream_length ((n + 63) / 64) ctx.input
  generalize key_stream ((n + 63) / 64) ctx.input = ks at e1 e2 hks
  have hl : (xor_bytes ks (List.replicate n 0)).length = n := by
    rw [xor_bytes_length, List.length_replicate]
    omega
  unfold xchacha_keystream_bytes
  exact ⟨_, _, e1, e2, hl⟩

/-- C12, at a concrete input: 70 bytes of keystream into a buffer of 72 bytes. -/
theorem keystream_bytes_eq_encrypt_zeros_witness :
    ∃ ctx' ks,
      xchacha_keystream_bytes sample_ctx (List.replicate 72 5) sample_tmp 70
        = some (ctx', ks ++ (List.replicate 72 5).drop 70)
      ∧ xchacha_encrypt_bytes sample_ctx (List.replicate 70 0) (List.replicate 70 9)
          (List.replicate 64 0) 70 = some (ctx', ks ++ (List.replicate 70 9).drop 70)
      ∧ ks.length = 70 :=
  keystream_bytes_eq_encrypt_zeros sample_ctx (List.replicate 72 5) (List.replicate 70 9)
    sample_tmp (List.replicate 64 0) 70 (by decide) (by decide) (by decide) (by decide)

/-- C13 (set_counter): `xchacha_set_counter` sets word 12 to the little-endian
decoding of `counter[0:4]` and word 13 to that of `counter[4:8]`, so that
`word12 + 2^32 * word13` is the 64-bit little-endian value of the 8 bytes, and
leaves words 0-11 and 14-15 as they were. -/
theorem set_counter_correct (ctx : XChaCha_ctx) (cb : List Nat) (hcb : IsBytes cb) :
    (xchacha_set_counter ctx cb).input
        = { ctx.input with
            w12 := cb.getD 0 0 + 2 ^ 8 * cb.getD 1 0 + 2 ^ 16 * cb.getD 2 0 + 2 ^ 24 * cb.getD 3 0,
            w13 := cb.getD 4 0 + 2 ^ 8 * cb.getD 5 0 + 2 ^ 16 * cb.getD 6 0 + 2 ^ 24 * cb.getD 7 0 }
      ∧ counter (xchacha_set_counter ctx cb).input
        = cb.getD 0 0 + 2 ^ 8 * cb.getD 1 0 + 2 ^ 16 * cb.getD 2 0 + 2 ^ 24 * cb.getD 3 0
          + 2 ^ 32 * cb.getD 4 0 + 2 ^ 40 * cb.getD 5 0 + 2 ^ 48 * cb.getD 6 0
          + 2 ^ 56 * cb.getD 7 0 := by
  have k0 : U8TO32_LITTLE (cb.drop 0) = le_word cb 0 := U8TO32_LITTLE_drop cb hcb 0
  have k1 : U8TO32_LITTLE (cb.drop 4) = le_word cb 1 := U8TO32_LITTLE_drop cb hcb 1
  unfold xchacha_set_counter counter
  simp only [k0, k1, le_word]
  norm_num
  ring

/-- C13, at a concrete input: the counter bytes `1 .. 8`. -/
theorem set_counter_correct_witness :
    (xchacha_set_counter sample_ctx [1, 2, 3, 4, 5, 6, 7, 8]).input
        = { sample_ctx.input with
            w12 := [1, 2, 3, 4, 5, 6, 7, 8].getD 0 0 + 2 ^ 8 * [1, 2, 3, 4, 5, 6, 7, 8].getD 1 0
              + 2 ^ 16 * [1, 2, 3, 4, 5, 6, 7, 8].getD 2 0
              + 2 ^ 24 * [1, 2, 3, 4, 5, 6, 7, 8].getD 3 0,
            w13 := [1, 2, 3, 4, 5, 6, 7, 8].getD 4 0 + 2 ^ 8 * [1, 2, 3, 4, 5, 6, 7, 8].getD 5 0
              + 2 ^ 16 * [1, 2, 3, 4, 5, 6, 7, 8].getD 6 0
              + 2 ^ 24 * [1, 2, 3, 4, 5, 6, 7, 8].getD 7 0 }
      ∧ counter (xchacha_set_counter sample_ctx [1, 2, 3, 4, 5, 6, 7, 8]).input
        = [1, 2, 3, 4, 5, 6, 7, 8].getD 0 0 + 2 ^ 8 * [1, 2, 3, 4, 5, 6, 7, 8].getD 1 0
          + 2 ^ 16 * [1, 2, 3, 4, 5, 6, 7, 8].getD 2 0
          + 2 ^ 24 * [1, 2, 3, 4, 5, 6, 7, 8].getD 3 0
          + 2 ^ 32 * [1, 2, 3, 4, 5, 6, 7, 8].getD 4 0
          + 2 ^ 40 * [1, 2, 3, 4, 5, 6, 7, 8].getD 5 0
          + 2 ^ 48 * [1, 2, 3, 4, 5, 6, 7, 8].getD 6 0
          + 2 ^ 56 * [1, 2, 3, 4, 5, 6, 7, 8].getD 7 0 :=
  set_counter_correct sample_ctx [1, 2, 3, 4, 5, 6, 7, 8] (by decide)

/-- C16 (one shared permutation): the round loop of `xchacha_hchacha20`
(`for (i = 0; i < 10; i++)`) and the round loop of `xchacha_encrypt_bytes`
(`for (i = 20; i > 0; i -= 2)`) compute the same function on every state, namely
10 iterations of the double round of the specification: quarter rounds on the
columns (0,4,8,12), (1,5,9,13), (2,6,10,14), (3,7,11,15), then on the diagonals
(0,5,10,15), (1,6,11,12), (2,7,8,13), (3,4,9,14). -/
theorem shared_permutation (x : Words16) :
    hchacha20_rounds 10 x = encrypt_rounds 20 x
      ∧ hchacha20_rounds 10 x = double_round^[10] x
      ∧ encrypt_rounds 20 x = double_round^[10] x := by
  refine ⟨?_, hchacha20_rounds_eq 10 x, encrypt_rounds_eq 10 x⟩
  rw [hchacha20_rounds_ten, encrypt_rounds_twenty]

/-- C17 (word codec): `U8TO32_LITTLE` on the bytes `b0, b1, b2, b3` is
`b0 + 2^8 * b1 + 2^16 * b2 + 2^24 * b3`; `U32TO8_LITTLE` on a 32-bit word `w` stores
`w mod 256`, `(w >> 8) mod 256`, `(w >> 16) mod 256`, `w >> 24`; and each undoes the
other. -/
theorem word_codec (b0 b1 b2 b3 w : Nat) (rest : List Nat) (h0 : b0 < 256) (h1 : b1 < 256)
    (h2 : b2 < 256) (h3 : b3 < 256) (hw : w < 2 ^ 32) :
    U8TO32_LITTLE (b0 :: b1 :: b2 :: b3 :: rest) = b0 + 2 ^ 8 * b1 + 2 ^ 16 * b2 + 2 ^ 24 * b3
      ∧ U32TO8_LITTLE w = [w % 256, (w >>> 8) % 256, (w >>> 16) % 256, w >>> 24]
      ∧ U8TO32_LITTLE (U32TO8_LITTLE w ++ rest) = w
      ∧ U32TO8_LITTLE (U8TO32_LITTLE (b0 :: b1 :: b2 :: b3 :: rest)) = [b0, b1, b2, b3] := by
  have hdec := U8TO32_LITTLE_bytes b0 b1 b2 b3 rest h0 h1 h2
  refine ⟨hdec, ?_, ?_, ?_⟩
  · have h24 : (w >>> 24) % 256 = w >>> 24 := by
      rw [Nat.shiftRight_eq_div_pow]
      omega
    simp only [U32TO8_LITTLE, U8V_eq, h24]
  · rw [U32TO8_LITTLE_eq]
    exact U8TO32_LITTLE_le_bytes w hw rest
  · rw [hdec, U32TO8_LITTLE_eq]
    simp only [le_bytes]
    have e0 : (b0 + 2 ^ 8 * b1 + 2 ^ 16 * b2 + 2 ^ 24 * b3) % 256 = b0 := by omega
    have e1 : (b0 + 2 ^ 8 * b1 + 2 ^ 16 * b2 + 2 ^ 24 * b3) / 2 ^ 8 % 256 = b1 := by omega
    have e2 : (b0 + 2 ^ 8 * b1 + 2 ^ 16 * b2 + 2 ^ 24 * b3) / 2 ^ 16 % 256 = b2 := by omega
    have e3 : (b0 + 2 ^ 8 * b1 + 2 ^ 16 * b2 + 2 ^ 24 * b3) / 2 ^ 24 % 256 = b3 := by omega
    rw [e0, e1, e2, e3]

/-- C17, at a concrete input: the bytes `0x78, 0x56, 0x34, 0x12` and the word
`0x12345678`. -/
theorem word_codec_witness :
    U8TO32_LITTLE (0x78 :: 0x56 :: 0x34 :: 0x12 :: [0xFF])
        = 0x78 + 2 ^ 8 * 0x56 + 2 ^ 16 * 0x34 + 2 ^ 24 * 0x12
      ∧ U32TO8_LITTLE 0x12345678
        = [0x12345678 % 256, (0x12345678 >>> 8) % 256, (0x12345678 >>> 16) % 256,
            0x12345678 >>> 24]
      ∧ U8TO32_LITTLE (U32TO8_LITTLE 0x12345678 ++ [0xFF]) = 0x12345678
      ∧ U32TO8_LITTLE (U8TO32_LITTLE (0x78 :: 0x56 :: 0x34 :: 0x12 :: [0xFF]))
        = [0x78, 0x56, 0x34, 0x12] :=
  word_codec 0x78 0x56 0x34 0x12 0x12345678 [0xFF] (by decide) (by decide) (by decide)
    (by decide) (by decide)

/-- The block loop runs out of fuel exactly when the fuel is less than
`ceil(bytes / 64)`. -/
theorem encrypt_loop_none_iff (fuel : Nat) :
    ∀ (ctx : XChaCha_ctx) (j : Words16) (m c tmp : List Nat) (bytes : Nat), 0 < bytes →
      (encrypt_loop fuel ctx j m c tmp bytes = none ↔ fuel < (bytes + 63) / 64) := by
  induction fuel with
  | zero =>
    intro ctx j m c tmp bytes h0
    have hpos : 0 < (bytes + 63) / 64 := by omega
    simp only [encrypt_loop, hpos]
  | succ fuel ih =>
    intro ctx j m c tmp bytes h0
    rw [encrypt_loop]
    by_cases hle : bytes ≤ 64
    · have hn : ¬ (fuel + 1 < (bytes + 63) / 64) := by omega
      by_cases hlt : bytes < 64
      · simp only [hle, hlt, if_true, hn, reduceCtorEq]
      · simp only [hle, hlt, if_true, if_false, hn, reduceCtorEq]
    · have hlt : ¬ bytes < 64 := by omega
      have hrec := ih ctx (encrypt_counter j) (m.drop 64) (c.drop 64) tmp (bytes - 64)
        (by omega)
      have hiff : fuel + 1 < (bytes + 63) / 64 ↔ fuel < (bytes - 64 + 63) / 64 := by omega
      simp only [hle, hlt, if_false]
      rw [hiff, ← hrec]
      cases encrypt_loop fuel ctx (encrypt_counter j) (m.drop 64) (c.drop 64) tmp (bytes - 64) with
      | none => simp
      | some r => simp

/-- C18 (the transform completes): `xchacha_encrypt_bytes` over `n` bytes returns,
for every context, every buffer contents and every `n`. Its body, run with an
iteration bound `fuel` on the block loop in place of the bound `n`, stops short
of the `return` exactly when `fuel < ceil(n / 64)`: the block loop makes
`ceil(n / 64)` iterations, none for `n = 0`, and has no failing branch. -/
theorem transform_completes (ctx : XChaCha_ctx) (m c tmp : List Nat) (n fuel : Nat) :
    (∃ r, xchacha_encrypt_bytes ctx m c tmp n = some r)
      ∧ ((if n = 0 then some (ctx, c) else encrypt_loop fuel ctx ctx.input m c tmp n) = none
          ↔ fuel < (n + 63) / 64) := by
  constructor
  · obtain ⟨c', hc'⟩ := xchacha_encrypt_bytes_ctx ctx m c tmp n
    exact ⟨_, hc'⟩
  · by_cases h0 : n = 0
    · simp only [h0, if_true, reduceCtorEq, false_iff]
      omega
    · rw [if_neg h0]
      exact encrypt_loop_none_iff fuel ctx ctx.input m c tmp n (by omega)

/-! ## Rotation -/

theorem two_pow_32_split (n : Nat) (hn : n < 32) : 2 ^ 32 = 2 ^ n * 2 ^ (32 - n) := by
  rw [← Nat.pow_add]
  congr 1
  omega

theorem div_pow_lt (v n : Nat) (hv : v < 2 ^ 32) (hn : n < 32) : v / 2 ^ (32 - n) < 2 ^ n := by
  rw [Nat.div_lt_iff_lt_mul (Nat.pos_pow_of_pos _ (by norm_num)), ← two_pow_32_split n hn]
  exact hv

/-- The rotation of the code is the arithmetic rotation, on 32-bit words. -/
theorem rotl_eq_rotate_left32 (v n : Nat) (hv : v < 2 ^ 32) (hn : n < 32) :
    rotl v n = rotate_left32 v n := by
  unfold rotl rotate_left32
  rw [Nat.shiftLeft_eq, Nat.shiftRight_eq_div_pow]
  have h1 : v * 2 ^ n % 2 ^ 32 = 2 ^ n * (v % 2 ^ (32 - n)) := by
    rw [two_pow_32_split n hn, Nat.mul_comm v, Nat.mul_mod_mul_left]
  rw [h1, ← Nat.mul_add_lt_is_or (div_pow_lt v n hv hn), Nat.mul_comm]

theorem rotate_left32_lt (v n : Nat) (hv : v < 2 ^ 32) (hn : n < 32) :
    rotate_left32 v n < 2 ^ 32 := by
  unfold rotate_left32
  have hy := div_pow_lt v n hv hn
  have hx : v % 2 ^ (32 - n) < 2 ^ (32 - n) := Nat.mod_lt _ (Nat.pos_pow_of_pos _ (by norm_num))
  calc v % 2 ^ (32 - n) * 2 ^ n + v / 2 ^ (32 - n)
      < v % 2 ^ (32 - n) * 2 ^ n + 2 ^ n := by omega
    _ = (v % 2 ^ (32 - n) + 1) * 2 ^ n := by ring
    _ ≤ 2 ^ (32 - n) * 2 ^ n := Nat.mul_le_mul_right _ hx
    _ = 2 ^ 32 := by rw [Nat.mul_comm, ← two_pow_32_split n hn]

theorem rotl_lt (v n : Nat) (hv : v < 2 ^ 32) (hn : n < 32) : rotl v n < 2 ^ 32 := by
  rw [rotl_eq_rotate_left32 v n hv hn]
  exact rotate_left32_lt v n hv hn

/-- Rotating left by `n` and then by `32 - n` gives the word back. -/
theorem rotate_left32_inv (v n : Nat) (hv : v < 2 ^ 32) (hn0 : 0 < n) (hn : n < 32) :
    rotate_left32 (rotate_left32 v n) (32 - n) = v := by
  unfold rotate_left32
  have hy := div_pow_lt v n hv hn
  have e : 32 - (32 - n) = n := by omega
  rw [e, Nat.add_comm (v % 2 ^ (32 - n) * 2 ^ n), Nat.add_mul_mod_self_right,
    Nat.mod_eq_of_lt hy, Nat.add_mul_div_right _ _ (Nat.pos_pow_of_pos _ (by norm_num)),
    Nat.div_eq_of_lt hy, Nat.zero_add, Nat.mul_comm]
  exact Nat.div_add_mod _ _

theorem rotl_inv (v n : Nat) (hv : v < 2 ^ 32) (hn0 : 0 < n) (hn : n < 32) :
    rotl (rotl v n) (32 - n) = v := by
  rw [rotl_eq_rotate_left32 v n hv hn,
    rotl_eq_rotate_left32 _ _ (rotate_left32_lt v n hv hn) (by omega)]
  exact rotate_left32_inv v n hv hn0 hn

theorem testBit_high (v i : Nat) (hv : v < 2 ^ 32) (hi : 32 ≤ i) : v.testBit i = false := by
  apply Nat.testBit_lt_two_pow
  calc v < 2 ^ 32 := hv
    _ ≤ 2 ^ i := Nat.pow_le_pow_right (by norm_num) hi

/-- Bit `i` of the rotated word is bit `i - n`, modulo 32, of the word. -/
theorem testBit_rotl (v n i : Nat) (hv : v < 2 ^ 32) (hn0 : 0 < n) (hn : n < 32) (hi : i < 32) :
    (rotl v n).testBit i = v.testBit ((i + 32 - n) % 32) := by
  simp only [rotl, Nat.testBit_or, Nat.testBit_mod_two_pow, Nat.testBit_shiftLeft,
    Nat.testBit_shiftRight]
  by_cases hge : n ≤ i
  · have e1 : (i + 32 - n) % 32 = i - n := by omega
    have t := testBit_high v (32 - n + i) hv (by omega)
    simp [hi, hge, e1, t]
  · have e1 : (i + 32 - n) % 32 = 32 - n + i := by omega
    simp [hi, hge, e1]

theorem xor_lt_two_pow_32 {a b : Nat} (ha : a < 2 ^ 32) (hb : b < 2 ^ 32) : a ^^^ b < 2 ^ 32 :=
  Nat.xor_lt_two_pow ha hb

/-- C15 (quarter round): on 32-bit words `a, b, c, d` (only `b` and `d`, the words
that get rotated, need the bound) the macro `QUARTERROUND` computes, in order, `a += b; d = rotl(d ^ a, 16); c += d; b = rotl(b ^ c, 12);
a += b; d = rotl(d ^ a, 8); c += d; b = rotl(b ^ c, 7)` with additions modulo `2^32`
and a true 32-bit left rotation; `ROTATE(v, n)` is that rotation for `n` among 16,
12, 8, 7: it stays below `2^32`, equals the arithmetic rotation, and its bit `i` is
bit `i - n` modulo 32 of `v`; and the quarter round maps `(0x11111111, 0x01020304,
0x9b8d6f43, 0x01234567)` to `(0xea2a92f4, 0xcb1cf8ce, 0x4581472e, 0x5881c4bb)`. -/
theorem quarterround_correct (a b c d v n : Nat) (hb : b < 2 ^ 32) (hd : d < 2 ^ 32)
    (hv : v < 2 ^ 32) (hn : n = 16 ∨ n = 12 ∨ n = 8 ∨ n = 7) :
    QUARTERROUND a b c d = quarter_round_rot a b c d
      ∧ ROTATE v n = rotate_left32 v n
      ∧ ROTATE v n < 2 ^ 32
      ∧ (∀ i, i < 32 → (ROTATE v n).testBit i = v.testBit ((i + 32 - n) % 32))
      ∧ QUARTERROUND 0x11111111 0x01020304 0x9b8d6f43 0x01234567
        = (0xea2a92f4, 0xcb1cf8ce, 0x4581472e, 0x5881c4bb) := by
  have hn0 : 0 < n := by omega
  have hn32 : n < 32 := by omega
  refine ⟨?_, ?_, ?_, ?_, by decide⟩
  · rw [QUARTERROUND_eq]
    simp only [quarter_round, quarter_round_rot]
    have ha1 : (a + b) % 2 ^ 32 < 2 ^ 32 := Nat.mod_lt _ (by norm_num)
    have e1 := rotl_eq_rotate_left32 (d ^^^ (a + b) % 2 ^ 32) 16 (xor_lt_two_pow_32 hd ha1)
      (by norm_num)
    have hd1 := rotate_left32_lt (d ^^^ (a + b) % 2 ^ 32) 16 (xor_lt_two_pow_32 hd ha1)
      (by norm_num)
    rw [e1]
    generalize rotate_left32 (d ^^^ (a + b) % 2 ^ 32) 16 = d1 at hd1 ⊢
    have hc1 : (c + d1) % 2 ^ 32 < 2 ^ 32 := Nat.mod_lt _ (by norm_num)
    have e2 := rotl_eq_rotate_left32 (b ^^^ (c + d1) % 2 ^ 32) 12 (xor_lt_two_pow_32 hb hc1)
      (by norm_num)
    have hb1 := rotate_left32_lt (b ^^^ (c + d1) % 2 ^ 32) 12 (xor_lt_two_pow_32 hb hc1)
      (by norm_num)
    rw [e2]
    generalize rotate_left32 (b ^^^ (c + d1) % 2 ^ 32) 12 = b1 at hb1 ⊢
    have ha2 : ((a + b) % 2 ^ 32 + b1) % 2 ^ 32 < 2 ^ 32 := Nat.mod_lt _ (by norm_num)
    have e3 := rotl_eq_rotate_left32 (d1 ^^^ ((a + b) % 2 ^ 32 + b1) % 2 ^ 32) 8
      (xor_lt_two_pow_32 hd1 ha2) (by norm_num)
    have hd2 := rotate_left32_lt (d1 ^^^ ((a + b) % 2 ^ 32 + b1) % 2 ^ 32) 8
      (xor_lt_two_pow_32 hd1 ha2) (by norm_num)
    rw [e3]
    generalize rotate_left32 (d1 ^^^ ((a + b) % 2 ^ 32 + b1) % 2 ^ 32) 8 = d2 at hd2 ⊢
    have hc2 : ((c + d1) % 2 ^ 32 + d2) % 2 ^ 32 < 2 ^ 32 := Nat.mod_lt _ (by norm_num)
    rw [rotl_eq_rotate_left32 (b1 ^^^ ((c + d1) % 2 ^ 32 + d2) % 2 ^ 32) 7
      (xor_lt_two_pow_32 hb1 hc2) (by norm_num)]
  · rw [ROTATE_eq]
    exact rotl_eq_rotate_left32 v n hv hn32
  · rw [ROTATE_eq]
    exact rotl_lt v n hv hn32
  · intro i hi
    rw [ROTATE_eq]
    exact testBit_rotl v n i hv hn0 hn32 hi

/-- C15, at a concrete input: the quarter-round vector and the rotation of
`0x80000001` by 7. -/
theorem quarterround_correct_witness :
    QUARTERROUND 0x11111111 0x01020304 0x9b8d6f43 0x01234567
        = quarter_round_rot 0x11111111 0x01020304 0x9b8d6f43 0x01234567
      ∧ ROTATE 0x80000001 7 = rotate_left32 0x80000001 7
      ∧ ROTATE 0x80000001 7 < 2 ^ 32
      ∧ (∀ i, i < 32 → (ROTATE 0x80000001 7).testBit i
          = (0x80000001 : Nat).testBit ((i + 32 - 7) % 32))
      ∧ QUARTERROUND 0x11111111 0x01020304 0x9b8d6f43 0x01234567
        = (0xea2a92f4, 0xcb1cf8ce, 0x4581472e, 0x5881c4bb) :=
  quarterround_correct 0x11111111 0x01020304 0x9b8d6f43 0x01234567 0x80000001 7 (by decide)
    (by decide) (by decide) (by decide)

theorem double_round_w0_lt (x : Words16) : (double_round x).w0 < 2 ^ 32 := by
  simp only [double_round, diagonal_round, quarter_round]
  exact Nat.mod_lt _ (by norm_num)

theorem hchacha20_rounds_w0_lt (x : Words16) : (hchacha20_rounds 10 x).w0 < 2 ^ 32 := by
  rw [hchacha20_rounds_eq, Function.iterate_succ_apply']
  exact double_round_w0_lt _

/-- C14 (no feed-forward in HChaCha20): for every key `k` and every input `n`, the
32 bytes stored by `xchacha_hchacha20` differ from the 32 bytes that the same
extraction (words 0-3 and 12-15, little-endian) gives when the initial state is
added back word by word, modulo `2^32`, after the permutation. Word 0 already
differs: the constant `0x61707865` is added to it. -/
theorem hchacha20_no_feed_forward (inp k : List Nat) :
    xchacha_hchacha20 inp k ≠ hchacha20_feed_forward inp k := by
  intro h
  unfold xchacha_hchacha20 hchacha20_feed_forward at h
  simp only [encrypt_plus, List.append_assoc] at h
  have hlt := hchacha20_rounds_w0_lt
    { w0 := 0x61707865, w1 := 0x3320646e, w2 := 0x79622d32, w3 := 0x6b206574,
      w4 := U8TO32_LITTLE (k.drop 0), w5 := U8TO32_LITTLE (k.drop 4),
      w6 := U8TO32_LITTLE (k.drop 8), w7 := U8TO32_LITTLE (k.drop 12),
      w8 := U8TO32_LITTLE (k.drop 16), w9 := U8TO32_LITTLE (k.drop 20),
      w10 := U8TO32_LITTLE (k.drop 24), w11 := U8TO32_LITTLE (k.drop 28),
      w12 := U8TO32_LITTLE (inp.drop 0), w13 := U8TO32_LITTLE (inp.drop 4),
      w14 := U8TO32_LITTLE (inp.drop 8), w15 := U8TO32_LITTLE (inp.drop 12) }
  generalize hchacha20_rounds 10
    { w0 := 0x61707865, w1 := 0x3320646e, w2 := 0x79622d32, w3 := 0x6b206574,
      w4 := U8TO32_LITTLE (k.drop 0), w5 := U8TO32_LITTLE (k.drop 4),
      w6 := U8TO32_LITTLE (k.drop 8), w7 := U8TO32_LITTLE (k.drop 12),
      w8 := U8TO32_LITTLE (k.drop 16), w9 := U8TO32_LITTLE (k.drop 20),
      w10 := U8TO32_LITTLE (k.drop 24), w11 := U8TO32_LITTLE (k.drop 28),
      w12 := U8TO32_LITTLE (inp.drop 0), w13 := U8TO32_LITTLE (inp.drop 4),
      w14 := U8TO32_LITTLE (inp.drop 8), w15 := U8TO32_LITTLE (inp.drop 12) } = x at h hlt
  have h2 := congrArg U8TO32_LITTLE h
  rw [U32TO8_LITTLE_eq x.w0, U32TO8_LITTLE_eq (PLUS x.w0 _),
    U8TO32_LITTLE_le_bytes _ hlt, U8TO32_LITTLE_le_bytes _ (PLUS_lt _ _), PLUS_eq] at h2
  omega

/-- Closed form of `xchacha_keystream_bytes`. -/
theorem xchacha_keystream_bytes_eq (ctx : XChaCha_ctx) (stream tmp : List Nat) (n : Nat)
    (ht : tmp.length = 64) (hb : IsBytes tmp) :
    xchacha_keystream_bytes ctx stream tmp n
      = some (stored_ctx ctx ctx.input ((n + 63) / 64),
          xor_bytes (key_stream ((n + 63) / 64) ctx.input) (List.replicate n 0)
            ++ stream.drop n) := by
  have hzs : (List.replicate n 0 ++ stream.drop n).take n = List.replicate n 0 :=
    take_append_length _ _ _ (List.length_replicate _ _)
  have hds : (List.replicate n 0 ++ stream.drop n).drop n = stream.drop n :=
    drop_append_length _ _ _ (List.length_replicate _ _)
  have e1 := xchacha_encrypt_bytes_eq ctx (List.replicate n 0 ++ stream.drop n)
    (List.replicate n 0 ++ stream.drop n) tmp n
    (by rw [List.length_append, List.length_replicate]; omega) ht
    (by rw [hzs]; exact IsBytes_replicate_zero n) hb
  rw [hzs, hds] at e1
  unfold xchacha_keystream_bytes
  exact e1

theorem stored_ctx_counter (ctx : XChaCha_ctx) (n : Nat) (h12 : ctx.input.w12 < 2 ^ 32)
    (h13 : ctx.input.w13 < 2 ^ 32) :
    counter (stored_ctx ctx ctx.input n).input = (counter ctx.input + n) % 2 ^ 64 := by
  rw [stored_ctx_input, iterate_counter_eq _ _ h12 h13,
    counter_with_counter _ _ (Nat.mod_lt _ (by norm_num))]

/-- C19 as stated fails: with the block count `2^26` the product
`(blocks) * XCHACHA_BLOCKLENGTH` is 0 in 32-bit arithmetic, not `2^32`, so
`xchacha_encrypt_blocks` on buffers of `2^32` bytes writes nothing and leaves the
counter of the sample context at 0, instead of advancing it by `2^26`. -/
theorem block_wrappers_counterexample :
    (2 ^ 26 * XCHACHA_BLOCKLENGTH) % 2 ^ 32 = 0
      ∧ (2 ^ 26 * XCHACHA_BLOCKLENGTH) % 2 ^ 32 ≠ 64 * 2 ^ 26
      ∧ xchacha_encrypt_blocks sample_ctx (List.replicate (2 ^ 32) 0)
          (List.replicate (2 ^ 32) 1) sample_tmp (2 ^ 26)
        = some (sample_ctx, List.replicate (2 ^ 32) 1)
      ∧ counter sample_ctx.input = 0
      ∧ counter sample_ctx.input ≠ (counter sample_ctx.input + 2 ^ 26) % 2 ^ 64 := by
  refine ⟨by decide, by decide, ?_, by decide, by decide⟩
  have h0 : (2 ^ 26 * XCHACHA_BLOCKLENGTH) % 2 ^ 32 = 0 := by decide
  unfold xchacha_encrypt_blocks
  rw [h0]
  rfl

/-- C19, amended (block wrappers): for a block count `b` with `64 * b < 2^32`, the
byte length `(blocks) * XCHACHA_BLOCKLENGTH` passed on is the product `64 * b`, and
`xchacha_encrypt_blocks`, `xchacha_decrypt_blocks` and `xchacha_keystream_blocks`
return, write exactly `64 * b` bytes (`b` whole blocks, the rest of the buffer is
untouched) and advance the 64-bit counter by `b`, modulo `2^64`. -/
theorem block_wrappers (ctx : XChaCha_ctx) (m c stream tmp : List Nat) (b : Nat)
    (hb : 64 * b < 2 ^ 32) (hm : 64 * b ≤ m.length) (hmb : IsBytes (m.take (64 * b)))
    (ht : tmp.length = 64) (htb : IsBytes tmp)
    (h12 : ctx.input.w12 < 2 ^ 32) (h13 : ctx.input.w13 < 2 ^ 32) :
    (b * XCHACHA_BLOCKLENGTH) % 2 ^ 32 = 64 * b
      ∧ (∃ ctx' out,
          xchacha_encrypt_blocks ctx m c tmp b = some (ctx', out ++ c.drop (64 * b))
          ∧ xchacha_decrypt_blocks ctx m c tmp b = some (ctx', out ++ c.drop (64 * b))
          ∧ xchacha_encrypt_bytes ctx m c tmp (64 * b) = some (ctx', out ++ c.drop (64 * b))
          ∧ out.length = 64 * b
          ∧ counter ctx'.input = (counter ctx.input + b) % 2 ^ 64)
      ∧ (∃ ctx' ks,
          xchacha_keystream_blocks ctx stream tmp b = some (ctx', ks ++ stream.drop (64 * b))
          ∧ ks.length = 64 * b
          ∧ counter ctx'.input = (counter ctx.input + b) % 2 ^ 64) := by
  have hbl : (b * XCHACHA_BLOCKLENGTH) % 2 ^ 32 = 64 * b := by
    unfold XCHACHA_BLOCKLENGTH
    omega
  have hn : (64 * b + 63) / 64 = b := by omega
  have he := xchacha_encrypt_bytes_eq ctx m c tmp (64 * b) hm ht hmb htb
  have hk := xchacha_keystream_bytes_eq ctx stream tmp (64 * b) ht htb
  rw [hn] at he hk
  have hks := key_stream_length b ctx.input
  have hctr := stored_ctx_counter ctx b h12 h13
  generalize key_stream b ctx.input = ks at he hk hks
  have hl1 : (xor_bytes ks (m.take (64 * b))).length = 64 * b := by
    rw [xor_bytes_length, List.length_take]
    omega
  have hl2 : (xor_bytes ks (List.replicate (64 * b) 0)).length = 64 * b := by
    rw [xor_bytes_length, List.length_replicate]
    omega
  refine ⟨hbl, ⟨_, _, ?_, ?_, he, hl1, hctr⟩, ⟨_, _, ?_, hl2, hctr⟩⟩
  · unfold xchacha_encrypt_blocks
    rw [hbl]
    exact he
  · unfold xchacha_decrypt_blocks xchacha_decrypt_bytes
    rw [hbl]
    exact he
  · unfold xchacha_keystream_blocks
    rw [hbl]
    exact hk

/-- C19 amended, at a concrete input: two blocks on buffers of 130 bytes. -/
theorem block_wrappers_witness :
    (2 * XCHACHA_BLOCKLENGTH) % 2 ^ 32 = 64 * 2
      ∧ (∃ ctx' out,
          xchacha_encrypt_blocks sample_ctx (List.range 130) (List.replicate 130 0) sample_tmp 2
            = some (ctx', out ++ (List.replicate 130 0).drop (64 * 2))
          ∧ xchacha_decrypt_blocks sample_ctx (List.range 130) (List.replicate 130 0)
              sample_tmp 2 = some (ctx', out ++ (List.replicate 130 0).drop (64 * 2))
          ∧ xchacha_encrypt_bytes sample_ctx (List.range 130) (List.replicate 130 0)
              sample_tmp (64 * 2) = some (ctx', out ++ (List.replicate 130 0).drop (64 * 2))
          ∧ out.length = 64 * 2
          ∧ counter ctx'.input = (counter sample_ctx.input + 2) % 2 ^ 64)
      ∧ (∃ ctx' ks,
          xchacha_keystream_blocks sample_ctx (List.replicate 130 5) sample_tmp 2
            = some (ctx', ks ++ (List.replicate 130 5).drop (64 * 2))
          ∧ ks.length = 64 * 2
          ∧ counter ctx'.input = (counter sample_ctx.input + 2) % 2 ^ 64) :=
  block_wrappers sample_ctx (List.range 130) (List.replicate 130 0) (List.replicate 130 5)
    sample_tmp 2 (by decide) (by decide) (by decide) (by decide) (by decide) (by decide)
    (by decide)

/-! ## The quarter round and the rounds are invertible -/

theorem xor_xor_cancel (v k : Nat) : (v ^^^ k) ^^^ k = v := by
  rw [Nat.xor_assoc, Nat.xor_self, Nat.xor_zero]

theorem rotl_16_16 (v : Nat) (hv : v < 2 ^ 32) : rotl (rotl v 16) 16 = v :=
  rotl_inv v 16 hv (by norm_num) (by norm_num)

theorem rotl_12_20 (v : Nat) (hv : v < 2 ^ 32) : rotl (rotl v 12) 20 = v :=
  rotl_inv v 12 hv (by norm_num) (by norm_num)

theorem rotl_8_24 (v : Nat) (hv : v < 2 ^ 32) : rotl (rotl v 8) 24 = v :=
  rotl_inv v 8 hv (by norm_num) (by norm_num)

theorem rotl_7_25 (v : Nat) (hv : v < 2 ^ 32) : rotl (rotl v 7) 25 = v :=
  rotl_inv v 7 hv (by norm_num) (by norm_num)

theorem rotl_20_12 (v : Nat) (hv : v < 2 ^ 32) : rotl (rotl v 20) 12 = v :=
  rotl_inv v 20 hv (by norm_num) (by norm_num)

theorem rotl_24_8 (v : Nat) (hv : v < 2 ^ 32) : rotl (rotl v 24) 8 = v :=
  rotl_inv v 24 hv (by norm_num) (by norm_num)

theorem rotl_25_7 (v : Nat) (hv : v < 2 ^ 32) : rotl (rotl v 25) 7 = v :=
  rotl_inv v 25 hv (by norm_num) (by norm_num)

theorem add_sub_mod (x y : Nat) (hx : x < 2 ^ 32) (hy : y < 2 ^ 32) :
    ((x + y) % 2 ^ 32 + 2 ^ 32 - y) % 2 ^ 32 = x := by
  omega

theorem sub_add_mod (x y : Nat) (hx : x < 2 ^ 32) (hy : y < 2 ^ 32) :
    ((x + 2 ^ 32 - y) % 2 ^ 32 + y) % 2 ^ 32 = x := by
  omega

theorem mod_32_lt (x : Nat) : x % 2 ^ 32 < 2 ^ 32 := Nat.mod_lt _ (by norm_num)

theorem quarter_round_valid (a b c d : Nat) (hb : b < 2 ^ 32) (hd : d < 2 ^ 32) :
    IsWords4 (quarter_round a b c d) := by
  simp only [quarter_round, IsWords4]
  have hd1 := rotl_lt (d ^^^ (a + b) % 2 ^ 32) 16 (xor_lt_two_pow_32 hd (mod_32_lt _))
    (by norm_num)
  generalize rotl (d ^^^ (a + b) % 2 ^ 32) 16 = d1 at hd1 ⊢
  have hb1 := rotl_lt (b ^^^ (c + d1) % 2 ^ 32) 12 (xor_lt_two_pow_32 hb (mod_32_lt _))
    (by norm_num)
  generalize rotl (b ^^^ (c + d1) % 2 ^ 32) 12 = b1 at hb1 ⊢
  have hd2 := rotl_lt (d1 ^^^ ((a + b) % 2 ^ 32 + b1) % 2 ^ 32) 8
    (xor_lt_two_pow_32 hd1 (mod_32_lt _)) (by norm_num)
  generalize rotl (d1 ^^^ ((a + b) % 2 ^ 32 + b1) % 2 ^ 32) 8 = d2 at hd2 ⊢
  exact ⟨mod_32_lt _, rotl_lt _ _ (xor_lt_two_pow_32 hb1 (mod_32_lt _)) (by norm_num),
    mod_32_lt _, hd2⟩

theorem quarter_round_inv_valid (a b c d : Nat) (ha : a < 2 ^ 32) (hb : b < 2 ^ 32)
    (hc : c < 2 ^ 32) (hd : d < 2 ^ 32) : IsWords4 (quarter_round_inv a b c d) := by
  simp only [quarter_round_inv, IsWords4]
  have hb1 : rotl b 25 ^^^ c < 2 ^ 32 := xor_lt_two_pow_32 (rotl_lt _ _ hb (by norm_num)) hc
  generalize rotl b 25 ^^^ c = b1 at hb1 ⊢
  have hd1 : rotl d 24 ^^^ a < 2 ^ 32 := xor_lt_two_pow_32 (rotl_lt _ _ hd (by norm_num)) ha
  generalize rotl d 24 ^^^ a = d1 at hd1 ⊢
  have hb0 : rotl b1 20 ^^^ (c + 2 ^ 32 - d) % 2 ^ 32 < 2 ^ 32 :=
    xor_lt_two_pow_32 (rotl_lt _ _ hb1 (by norm_num)) (mod_32_lt _)
  exact ⟨mod_32_lt _, hb0, mod_32_lt _,
    xor_lt_two_pow_32 (rotl_lt _ _ hd1 (by norm_num)) (mod_32_lt _)⟩

/-- Undoing the quarter round gives the four words back. -/
theorem quarter_round_inv_left (a b c d : Nat) (ha : a < 2 ^ 32) (hb : b < 2 ^ 32)
    (hc : c < 2 ^ 32) (hd : d < 2 ^ 32) :
    quarter_round_inv (quarter_round a b c d).1 (quarter_round a b c d).2.1
      (quarter_round a b c d).2.2.1 (quarter_round a b c d).2.2.2 = (a, b, c, d) := by
  simp only [quarter_round, quarter_round_inv]
  have ha1 : (a + b) % 2 ^ 32 < 2 ^ 32 := mod_32_lt _
  have f8 := add_sub_mod a b ha hb
  generalize (a + b) % 2 ^ 32 = a1 at ha1 f8 ⊢
  have hx1 := xor_lt_two_pow_32 hd ha1
  have f7 : rotl (rotl (d ^^^ a1) 16) 16 ^^^ a1 = d := by
    rw [rotl_16_16 _ hx1, xor_xor_cancel]
  have hd1 := rotl_lt (d ^^^ a1) 16 hx1 (by norm_num)
  generalize rotl (d ^^^ a1) 16 = d1 at hd1 f7 ⊢
  have hc1 : (c + d1) % 2 ^ 32 < 2 ^ 32 := mod_32_lt _
  have f6 := add_sub_mod c d1 hc hd1
  generalize (c + d1) % 2 ^ 32 = c1 at hc1 f6 ⊢
  have hx2 := xor_lt_two_pow_32 hb hc1
  have f5 : rotl (rotl (b ^^^ c1) 12) 20 ^^^ c1 = b := by
    rw [rotl_12_20 _ hx2, xor_xor_cancel]
  have hb1 := rotl_lt (b ^^^ c1) 12 hx2 (by norm_num)
  generalize rotl (b ^^^ c1) 12 = b1 at hb1 f5 ⊢
  have ha2 : (a1 + b1) % 2 ^ 32 < 2 ^ 32 := mod_32_lt _
  have f4 := add_sub_mod a1 b1 ha1 hb1
  generalize (a1 + b1) % 2 ^ 32 = a2 at ha2 f4 ⊢
  have hx3 := xor_lt_two_pow_32 hd1 ha2
  have f3 : rotl (rotl (d1 ^^^ a2) 8) 24 ^^^ a2 = d1 := by
    rw [rotl_8_24 _ hx3, xor_xor_cancel]
  have hd2 := rotl_lt (d1 ^^^ a2) 8 hx3 (by norm_num)
  generalize rotl (d1 ^^^ a2) 8 = d2 at hd2 f3 ⊢
  have hc2 : (c1 + d2) % 2 ^ 32 < 2 ^ 32 := mod_32_lt _
  have f2 := add_sub_mod c1 d2 hc1 hd2
  generalize (c1 + d2) % 2 ^ 32 = c2 at hc2 f2 ⊢
  have hx4 := xor_lt_two_pow_32 hb1 hc2
  have f1 : rotl (rotl (b1 ^^^ c2) 7) 25 ^^^ c2 = b1 := by
    rw [rotl_7_25 _ hx4, xor_xor_cancel]
  rw [f1, f2, f3, f4, f5, f6, f7, f8]

/-- The quarter round of what undoing gives is the four words again. -/
theorem quarter_round_inv_right (a b c d : Nat) (ha : a < 2 ^ 32) (hb : b < 2 ^ 32)
    (hc : c < 2 ^ 32) (hd : d < 2 ^ 32) :
    quarter_round (quarter_round_inv a b c d).1 (quarter_round_inv a b c d).2.1
      (quarter_round_inv a b c d).2.2.1 (quarter_round_inv a b c d).2.2.2 = (a, b, c, d) := by
  simp only [quarter_round, quarter_round_inv]
  have hrb := rotl_lt b 25 hb (by norm_num)
  have g8 : rotl (rotl b 25 ^^^ c ^^^ c) 7 = b := by
    rw [xor_xor_cancel, rotl_25_7 _ hb]
  have hb1 : rotl b 25 ^^^ c < 2 ^ 32 := xor_lt_two_pow_32 hrb hc
  generalize rotl b 25 ^^^ c = b1 at hb1 g8 ⊢
  have g7 := sub_add_mod c d hc hd
  have hc1 : (c + 2 ^ 32 - d) % 2 ^ 32 < 2 ^ 32 := mod_32_lt _
  generalize (c + 2 ^ 32 - d) % 2 ^ 32 = c1 at hc1 g7 ⊢
  have hrd := rotl_lt d 24 hd (by norm_num)
  have g6 : rotl (rotl d 24 ^^^ a ^^^ a) 8 = d := by
    rw [xor_xor_cancel, rotl_24_8 _ hd]
  have hd1 : rotl d 24 ^^^ a < 2 ^ 32 := xor_lt_two_pow_32 hrd ha
  generalize rotl d 24 ^^^ a = d1 at hd1 g6 ⊢
  have g5 := sub_add_mod a b1 ha hb1
  have ha1 : (a + 2 ^ 32 - b1) % 2 ^ 32 < 2 ^ 32 := mod_32_lt _
  generalize (a + 2 ^ 32 - b1) % 2 ^ 32 = a1 at ha1 g5 ⊢
  have g4 : rotl (rotl b1 20 ^^^ c1 ^^^ c1) 12 = b1 := by
    rw [xor_xor_cancel, rotl_20_12 _ hb1]
  have hb0 : rotl b1 20 ^^^ c1 < 2 ^ 32 :=
    xor_lt_two_pow_32 (rotl_lt b1 20 hb1 (by norm_num)) hc1
  generalize rotl b1 20 ^^^ c1 = b0 at hb0 g4 ⊢
  have g3 := sub_add_mod c1 d1 hc1 hd1
  generalize (c1 + 2 ^ 32 - d1) % 2 ^ 32 = c0 at g3 ⊢
  have g2 : rotl (rotl d1 16 ^^^ a1 ^^^ a1) 16 = d1 := by
    rw [xor_xor_cancel, rotl_16_16 _ hd1]
  generalize rotl d1 16 ^^^ a1 = d0 at g2 ⊢
  have g1 := sub_add_mod a1 b0 ha1 hb0
  rw [g1, g2, g3, g4, g5, g6, g7, g8]

theorem column_round_valid (x : Words16) (hx : x.valid) : (column_round x).valid := by
  obtain ⟨h0, h1, h2, h3, h4, h5, h6, h7, h8, h9, h10, h11, h12, h13, h14, h15⟩ := hx
  obtain ⟨a0, a1, a2, a3⟩ := quarter_round_valid x.w0 x.w4 x.w8 x.w12 h4 h12
  obtain ⟨b0, b1, b2, b3⟩ := quarter_round_valid x.w1 x.w5 x.w9 x.w13 h5 h13
  obtain ⟨c0, c1, c2, c3⟩ := quarter_round_valid x.w2 x.w6 x.w10 x.w14 h6 h14
  obtain ⟨d0, d1, d2, d3⟩ := quarter_round_valid x.w3 x.w7 x.w11 x.w15 h7 h15
  exact ⟨a0, b0, c0, d0, a1, b1, c1, d1, a2, b2, c2, d2, a3, b3, c3, d3⟩

theorem diagonal_round_valid (x : Words16) (hx : x.valid) : (diagonal_round x).valid := by
  obtain ⟨h0, h1, h2, h3, h4, h5, h6, h7, h8, h9, h10, h11, h12, h13, h14, h15⟩ := hx
  obtain ⟨a0, a1, a2, a3⟩ := quarter_round_valid x.w0 x.w5 x.w10 x.w15 h5 h15
  obtain ⟨b0, b1, b2, b3⟩ := quarter_round_valid x.w1 x.w6 x.w11 x.w12 h6 h12
  obtain ⟨c0, c1, c2, c3⟩ := quarter_round_valid x.w2 x.w7 x.w8 x.w13 h7 h13
  obtain ⟨d0, d1, d2, d3⟩ := quarter_round_valid x.w3 x.w4 x.w9 x.w14 h4 h14
  exact ⟨a0, b0, c0, d0, d1, a1, b1, c1, c2, d2, a2, b2, b3, c3, d3, a3⟩

theorem column_round_inv_valid (x : Words16) (hx : x.valid) : (column_round_inv x).valid := by
  obtain ⟨h0, h1, h2, h3, h4, h5, h6, h7, h8, h9, h10, h11, h12, h13, h14, h15⟩ := hx
  obtain ⟨a0, a1, a2, a3⟩ := quarter_round_inv_valid x.w0 x.w4 x.w8 x.w12 h0 h4 h8 h12
  obtain ⟨b0, b1, b2, b3⟩ := quarter_round_inv_valid x.w1 x.w5 x.w9 x.w13 h1 h5 h9 h13
  obtain ⟨c0, c1, c2, c3⟩ := quarter_round_inv_valid x.w2 x.w6 x.w10 x.w14 h2 h6 h10 h14
  obtain ⟨d0, d1, d2, d3⟩ := quarter_round_inv_valid x.w3 x.w7 x.w11 x.w15 h3 h7 h11 h15
  exact ⟨a0, b0, c0, d0, a1, b1, c1, d1, a2, b2, c2, d2, a3, b3, c3, d3⟩

theorem diagonal_round_inv_valid (x : Words16) (hx : x.valid) :
    (diagonal_round_inv x).valid := by
  obtain ⟨h0, h1, h2, h3, h4, h5, h6, h7, h8, h9, h10, h11, h12, h13, h14, h15⟩ := hx
  obtain ⟨a0, a1, a2, a3⟩ := quarter_round_inv_valid x.w0 x.w5 x.w10 x.w15 h0 h5 h10 h15
  obtain ⟨b0, b1, b2, b3⟩ := quarter_round_inv_valid x.w1 x.w6 x.w11 x.w12 h1 h6 h11 h12
  obtain ⟨c0, c1, c2, c3⟩ := quarter_round_inv_valid x.w2 x.w7 x.w8 x.w13 h2 h7 h8 h13
  obtain ⟨d0, d1, d2, d3⟩ := quarter_round_inv_valid x.w3 x.w4 x.w9 x.w14 h3 h4 h9 h14
  exact ⟨a0, b0, c0, d0, d1, a1, b1, c1, c2, d2, a2, b2, b3, c3, d3, a3⟩

theorem column_round_inv_left (x : Words16) (hx : x.valid) :
    column_round_inv (column_round x) = x := by
  obtain ⟨h0, h1, h2, h3, h4, h5, h6, h7, h8, h9, h10, h11, h12, h13, h14, h15⟩ := hx
  simp only [column_round, column_round_inv]
  rw [quarter_round_inv_left x.w0 x.w4 x.w8 x.w12 h0 h4 h8 h12,
    quarter_round_inv_left x.w1 x.w5 x.w9 x.w13 h1 h5 h9 h13,
    quarter_round_inv_left x.w2 x.w6 x.w10 x.w14 h2 h6 h10 h14,
    quarter_round_inv_left x.w3 x.w7 x.w11 x.w15 h3 h7 h11 h15]

theorem column_round_inv_right (x : Words16) (hx : x.valid) :
    column_round (column_round_inv x) = x := by
  obtain ⟨h0, h1, h2, h3, h4, h5, h6, h7, h8, h9, h10, h11, h12, h13, h14, h15⟩ := hx
  simp only [column_round, column_round_inv]
  rw [quarter_round_inv_right x.w0 x.w4 x.w8 x.w12 h0 h4 h8 h12,
    quarter_round_inv_right x.w1 x.w5 x.w9 x.w13 h1 h5 h9 h13,
    quarter_round_inv_right x.w2 x.w6 x.w10 x.w14 h2 h6 h10 h14,
    quarter_round_inv_right x.w3 x.w7 x.w11 x.w15 h3 h7 h11 h15]

theorem diagonal_round_inv_left (x : Words16) (hx : x.valid) :
    diagonal_round_inv (diagonal_round x) = x := by
  obtain ⟨h0, h1, h2, h3, h4, h5, h6, h7, h8, h9, h10, h11, h12, h13, h14, h15⟩ := hx
  simp only [diagonal_round, diagonal_round_inv]
  rw [quarter_round_inv_left x.w0 x.w5 x.w10 x.w15 h0 h5 h10 h15,
    quarter_round_inv_left x.w1 x.w6 x.w11 x.w12 h1 h6 h11 h12,
    quarter_round_inv_left x.w2 x.w7 x.w8 x.w13 h2 h7 h8 h13,
    quarter_round_inv_left x.w3 x.w4 x.w9 x.w14 h3 h4 h9 h14]

theorem diagonal_round_inv_right (x : Words16) (hx : x.valid) :
    diagonal_round (diagonal_round_inv x) = x := by
  obtain ⟨h0, h1, h2, h3, h4, h5, h6, h7, h8, h9, h10, h11, h12, h13, h14, h15⟩ := hx
  simp only [diagonal_round, diagonal_round_inv]
  rw [quarter_round_inv_right x.w0 x.w5 x.w10 x.w15 h0 h5 h10 h15,
    quarter_round_inv_right x.w1 x.w6 x.w11 x.w12 h1 h6 h11 h12,
    quarter_round_inv_right x.w2 x.w7 x.w8 x.w13 h2 h7 h8 h13,
    quarter_round_inv_right x.w3 x.w4 x.w9 x.w14 h3 h4 h9 h14]

theorem column_round_bijOn :
    Set.BijOn column_round {x | x.valid} {x | x.valid} :=
  Set.InvOn.bijOn
    (show Set.InvOn column_round_inv column_round {x | x.valid} {x | x.valid} from
      ⟨fun x hx => column_round_inv_left x hx, fun x hx => column_round_inv_right x hx⟩)
    (fun x hx => column_round_valid x hx) (fun x hx => column_round_inv_valid x hx)

theorem diagonal_round_bijOn :
    Set.BijOn diagonal_round {x | x.valid} {x | x.valid} :=
  Set.InvOn.bijOn
    (show Set.InvOn diagonal_round_inv diagonal_round {x | x.valid} {x | x.valid} from
      ⟨fun x hx => diagonal_round_inv_left x hx, fun x hx => diagonal_round_inv_right x hx⟩)
    (fun x hx => diagonal_round_valid x hx) (fun x hx => diagonal_round_inv_valid x hx)

theorem double_round_bijOn :
    Set.BijOn double_round {x | x.valid} {x | x.valid} :=
  Set.BijOn.comp diagonal_round_bijOn column_round_bijOn

theorem double_round_iterate_bijOn (n : Nat) :
    Set.BijOn (double_round^[n]) {x | x.valid} {x | x.valid} :=
  Set.BijOn.iterate double_round_bijOn n

theorem QUARTERROUND4_bijOn :
    Set.BijOn QUARTERROUND4 {q | IsWords4 q} {q | IsWords4 q} := by
  have hinv : Set.InvOn (fun q : Nat × Nat × Nat × Nat => quarter_round_inv q.1 q.2.1 q.2.2.1 q.2.2.2)
      QUARTERROUND4 {q | IsWords4 q} {q | IsWords4 q} := by
    constructor
    · rintro ⟨a, b, c, d⟩ ⟨ha, hb, hc, hd⟩
      simp only [QUARTERROUND4, QUARTERROUND_eq]
      exact quarter_round_inv_left a b c d ha hb hc hd
    · rintro ⟨a, b, c, d⟩ ⟨ha, hb, hc, hd⟩
      simp only [QUARTERROUND4, QUARTERROUND_eq]
      exact quarter_round_inv_right a b c d ha hb hc hd
  refine Set.InvOn.bijOn hinv ?_ ?_
  · rintro ⟨a, b, c, d⟩ ⟨ha, hb, hc, hd⟩
    simp only [QUARTERROUND4, QUARTERROUND_eq]
    exact quarter_round_valid a b c d hb hd
  · rintro ⟨a, b, c, d⟩ ⟨ha, hb, hc, hd⟩
    exact quarter_round_inv_valid a b c d ha hb hc hd

/-- C20 (the permutation is a bijection): the quarter round `QUARTERROUND` is a
bijection on quadruples of 32-bit words, and the 10 double rounds run by
`xchacha_hchacha20` and by `xchacha_encrypt_bytes` are a bijection on states of
sixteen 32-bit words: different states are never sent to the same state, and
every state is reached. -/
theorem permutation_bijective :
    Set.BijOn QUARTERROUND4 {q | IsWords4 q} {q | IsWords4 q}
      ∧ Set.BijOn (hchacha20_rounds 10) {x | x.valid} {x | x.valid}
      ∧ Set.BijOn (encrypt_rounds 20) {x | x.valid} {x | x.valid} := by
  have h1 : hchacha20_rounds 10 = double_round^[10] := funext (hchacha20_rounds_eq 10)
  have h2 : encrypt_rounds 20 = double_round^[10] := funext (encrypt_rounds_eq 10)
  rw [h1, h2]
  exact ⟨QUARTERROUND4_bijOn, double_round_iterate_bijOn 10, double_round_iterate_bijOn 10⟩

end XChaCha20
